import Mathlib

set_option maxHeartbeats 1000000

/-! Shallow embedding of the Markdown repair engine `smart_fix_markdown`
from `src/app.py`.  Text is modelled as a list of characters; each Python
string operation and each (anchored) regular expression used by the engine
is translated into an executable Lean function that follows the Python
semantics (greedy/lazy quantifiers with backtracking, lookarounds, and the
left-to-right non-overlapping scan of `re.sub` / `str.replace`). -/

abbrev Line := List Char

def chars (s : String) : Line := s.toList

/-- Python `str` whitespace (`\s`, `str.strip()`): space, tab, newline,
carriage return, vertical tab, form feed.  (Exotic Unicode spaces are
irrelevant to the inputs considered here.) -/
def pyIsSpace (c : Char) : Bool :=
  c = ' ' || c = '\t' || c = '\n' || c = '\r' || c = '\x0b' || c = '\x0c'

/-- The backquote character used by fence markers. -/
def tick : Char := '\x60'

/-- The zero-width space stripped by the first global cleanup. -/
def zwsp : Char := '\u200b'

/-- `isSegAt p s`: `s` starts with the segment `p`. -/
def isSegAt : Line → Line → Bool
  | [], _ => true
  | _ :: _, [] => false
  | p :: ps, c :: cs => p = c && isSegAt ps cs

/-- Python `p in s` (substring test). -/
def hasSeg (p : Line) : Line → Bool
  | [] => isSegAt p []
  | c :: cs => isSegAt p (c :: cs) || hasSeg p cs

/-- Python `text.split('\n')` (keeps empty pieces; `""` gives `[""]`). -/
def splitNl : Line → List Line
  | [] => [[]]
  | c :: cs =>
    if c = '\n' then [] :: splitNl cs
    else
      match splitNl cs with
      | [] => [[c]]
      | h :: t => (c :: h) :: t

/-- Python `'\n'.join(lines)`. -/
def joinNl : List Line → Line
  | [] => []
  | [l] => l
  | l :: ls => l ++ '\n' :: joinNl ls

/-- Python `text.replace('\u200b', '')`: removes every occurrence. -/
def removeChar (a : Char) (l : Line) : Line := l.filter (· ≠ a)

/-- Python `text.replace(ab, r)` for a two-character pattern: left-to-right,
non-overlapping. -/
def replaceSeg2 (a b : Char) (r : Line) : Line → Line
  | [] => []
  | [c] => [c]
  | c :: d :: rest =>
    if c = a ∧ d = b then r ++ replaceSeg2 a b r rest
    else c :: replaceSeg2 a b r (d :: rest)

/-- Result of the global pre-pass (steps 1 and 2 of `smart_fix_markdown`):
the rewritten text plus the three log flags. -/
structure PreRes where
  text : Line
  zf : Bool
  bf : Bool
  inf : Bool

/-- Steps 1–2 of `smart_fix_markdown`: strip zero-width spaces, then
`\[`/`\]` → `$$` and `\(`/`\)` → `$`, each `str.replace` applied to the
whole text.  The `if` guards mirror the Python conditionals (they also
decide the log entries). -/
def prePass (t : Line) : PreRes :=
  let zf := t.contains zwsp
  let t1 := if zf then removeChar zwsp t else t
  let bf := hasSeg ['\\', '['] t1 || hasSeg ['\\', ']'] t1
  let t2 :=
    if bf then replaceSeg2 '\\' ']' ['$', '$'] (replaceSeg2 '\\' '[' ['$', '$'] t1)
    else t1
  let inl := hasSeg ['\\', '('] t2 || hasSeg ['\\', ')'] t2
  let t3 :=
    if inl then replaceSeg2 '\\' ')' ['$'] (replaceSeg2 '\\' '(' ['$'] t2)
    else t2
  ⟨t3, zf, bf, inl⟩

def prePassText (t : Line) : Line := (prePass t).text

/-- Length of the leading run of characters satisfying `p`. -/
def runLen (p : Char → Bool) : Line → Nat
  | [] => 0
  | c :: cs => if p c then runLen p cs + 1 else 0

/-- `re_code_fence = re.compile(r'^\s*```')` via `.match`: optional leading
whitespace followed by three backquotes (a prefix match: trailing text is
arbitrary). -/
def isFence (l : Line) : Bool :=
  isSegAt [tick, tick, tick] (l.dropWhile pyIsSpace)

/-- The character class `[^ #]` applied to an optional character. -/
def classNotSpaceHash : Option Char → Bool
  | some c => c ≠ ' ' && c ≠ '#'
  | none => false

/-- The character class `[^ \n]` applied to an optional character. -/
def classNotSpaceNl : Option Char → Bool
  | some c => c ≠ ' ' && c ≠ '\n'
  | none => false

/-- Backtracking for `^(#{1,6})([^ #])`: the greedy `#{1,6}` tries the
longest repetition first.  `reHeadingTry l j` tries widths `j, j-1, …, 1`. -/
def reHeadingTry (l : Line) : Nat → Option Nat
  | 0 => none
  | j + 1 =>
    if (l.take (j + 1)).length = j + 1 ∧ (l.take (j + 1)).all (· = '#')
        ∧ classNotSpaceHash (l.get? (j + 1)) then some (j + 1)
    else reHeadingTry l j

/-- `re_heading = re.compile(r'^(#{1,6})([^ #])')` via `.match`; returns the
number of hashes consumed on success. -/
def reHeading (l : Line) : Option Nat := reHeadingTry l 6

/-- `re_heading.sub(r'\1 \2', line)`: the pattern is `^`-anchored, so at most
one (leftmost) replacement happens — a single space is inserted after the
matched hash run. -/
def headingFix (l : Line) : Line :=
  match reHeading l with
  | some j => l.take j ++ ' ' :: l.drop j
  | none => l

/-- Backtracking for `^(>+)([^ \n])`: `>+` is greedy; widths are tried from
the full run of `>` downwards; every position `j` below the run length has
`l[j] = '>'`, which the class `[^ \n]` accepts. -/
def reQuoteTry (l : Line) : Nat → Option Nat
  | 0 => none
  | j + 1 =>
    if classNotSpaceNl (l.get? (j + 1)) then some (j + 1) else reQuoteTry l j

/-- `re_quote = re.compile(r'^(>+)([^ \n])')` via `.match`. -/
def reQuote (l : Line) : Option Nat := reQuoteTry l (runLen (· = '>') l)

/-- `re_quote.sub(r'\1 \2', line)` (anchored, single replacement). -/
def quoteFix (l : Line) : Line :=
  match reQuote l with
  | some j => l.take j ++ ' ' :: l.drop j
  | none => l

def isUlMark (c : Char) : Bool := c = '-' || c = '*' || c = '+'

/-- `re_ul = re.compile(r'^(\s*[-*+])([^ \n])')` via `.match`: `\s*` must end
exactly at the first non-whitespace character (a shorter match leaves a
whitespace character where `[-*+]` is required).  Returns the length of
group 1 on success. -/
def reUl (l : Line) : Option Nat :=
  let w := l.takeWhile pyIsSpace
  match l.dropWhile pyIsSpace with
  | m :: c :: _ =>
    if isUlMark m ∧ c ≠ ' ' ∧ c ≠ '\n' then some (w.length + 1) else none
  | _ => none

def ulFix (l : Line) : Line :=
  match reUl l with
  | some j => l.take j ++ ' ' :: l.drop j
  | none => l

/-- `re_ol = re.compile(r'^(\s*\d+\.)([^ \n])')` via `.match`: `\d+` must
consume the whole digit run (fewer digits leave a digit where `.` is
required).  `\d` is taken as ASCII digits. -/
def reOl (l : Line) : Option Nat :=
  let a := l.dropWhile pyIsSpace
  let d := runLen (·.isDigit) a
  if 1 ≤ d ∧ a.get? d = some '.' ∧ classNotSpaceNl (a.get? (d + 1)) = true then
    some ((l.takeWhile pyIsSpace).length + d + 1)
  else none

def olFix (l : Line) : Line :=
  match reOl l with
  | some j => l.take j ++ ' ' :: l.drop j
  | none => l

/-- `re_heading_std = re.compile(r'^(#{1,6}) (.*)')` via `.match`: only the
full leading hash run can be followed by the mandatory space (any shorter
greedy width puts a `#` where the space is required), so the pattern matches
iff the hash run has length 1–6 and is followed by a space. -/
def reHeadingStd (l : Line) : Bool :=
  let k := runLen (· = '#') l
  decide (1 ≤ k ∧ k ≤ 6 ∧ l.get? k = some ' ')

/-- `re_quote_std = re.compile(r'^(>+)( .*)?')` via `.match`: the second
group is optional, so the pattern matches iff the line starts with `>`. -/
def reQuoteStd (l : Line) : Bool :=
  match l with
  | '>' :: _ => true
  | _ => false

/-- `re_ul_std = re.compile(r'^(\s*[-*+]) (.*)')` via `.match`. -/
def reUlStd (l : Line) : Bool :=
  match l.dropWhile pyIsSpace with
  | m :: ' ' :: _ => isUlMark m
  | _ => false

/-- `re_ol_std = re.compile(r'^(\s*\d+\.) (.*)')` via `.match`. -/
def reOlStd (l : Line) : Bool :=
  let a := l.dropWhile pyIsSpace
  let d := runLen (·.isDigit) a
  decide (1 ≤ d ∧ a.get? d = some '.' ∧ a.get? (d + 1) = some ' ')

def isHrSym (c : Char) : Bool := c = '-' || c = '*' || c = '_'

/-- `re_hr = re.compile(r'^\s*([-*_]){3,}\s*$')` via `.match`: after the
leading whitespace there must be a run of at least three symbol characters
(mixing `-`, `*`, `_` is allowed) followed by whitespace only; `{3,}` is
greedy and shorter widths leave a symbol where `\s*$` must match, so the
maximal run is the only candidate. -/
def reHr (l : Line) : Bool :=
  let a := l.dropWhile pyIsSpace
  let s := a.takeWhile isHrSym
  decide (3 ≤ s.length) && (a.dropWhile isHrSym).all pyIsSpace

/-- The class `[ \t]` of the inline-math pattern. -/
def isSpTab (c : Char) : Bool := c = ' ' || c = '\t'

/-! The three unanchored substitutions (`re_bold_fix`, the inline-math fix
and the `<sup>` fix) are implemented as left-to-right scanners: at each
position the engine attempts a match; on success it emits the replacement
and resumes after the match, otherwise it emits one character and moves
on — exactly the non-overlapping scan of `re.sub`. -/

/-- For `\*\*\s+(.*?)\s+\*\*`: does `s` begin with the closing `\s+\*\*`?
The inner `\s+` is greedy, but any width short of the full whitespace run
leaves a whitespace character where `*` is required, so only the maximal
run can be followed by `**`.  Returns the remainder after the match. -/
def boldStop (s : Line) : Option Line :=
  if 1 ≤ runLen pyIsSpace s then
    match s.drop (runLen pyIsSpace s) with
    | '*' :: '*' :: tail => some tail
    | _ => none
  else none

/-- The lazy `(.*?)` of the bold pattern: the shortest prefix (group 1,
which `.` forbids from containing a newline) such that `\s+\*\*` follows.
Returns the group and the remainder after the whole match.  (On the empty
list `boldStop` cannot match, `\s+` needing a character.) -/
def boldLazy : Line → Option (Line × Line)
  | [] => none
  | c :: s' =>
    match boldStop (c :: s') with
    | some rem => some ([], rem)
    | none =>
      if c = '\n' then none
      else
        match boldLazy s' with
        | some (mid, rem) => some (c :: mid, rem)
        | none => none

/-- The leading `\s+` of the bold pattern is greedy: widths are tried from
the full whitespace run downwards, the lazy middle being retried for each. -/
def boldJ (full : Line) : Nat → Option (Line × Line)
  | 0 => none
  | j + 1 =>
    match boldLazy (full.drop (j + 1)) with
    | some r => some r
    | none => boldJ full j

/-- Match of `\s+(.*?)\s+\*\*` against a prefix of `full` (the text right
after an opening `**`). -/
def boldMatch (full : Line) : Option (Line × Line) :=
  boldJ full (runLen pyIsSpace full)

theorem boldStop_length {s rem : Line} (h : boldStop s = some rem) :
    rem.length < s.length := by
  unfold boldStop at h
  split at h
  · split at h
    · next tail heq =>
      cases h
      have := congrArg List.length heq
      simp only [List.length_drop, List.length_cons] at this
      omega
    · cases h
  · cases h

theorem boldLazy_length {s mid rem : Line} (h : boldLazy s = some (mid, rem)) :
    rem.length < s.length := by
  induction s generalizing mid with
  | nil => cases h
  | cons c s' ih =>
    rw [boldLazy] at h
    rcases hs : boldStop (c :: s') with _ | r
    · rw [hs] at h
      by_cases hc : c = '\n'
      · simp [hc] at h
      · simp only [hc, ite_false] at h
        rcases hl : boldLazy s' with _ | ⟨m, rm⟩
        · rw [hl] at h; cases h
        · rw [hl] at h
          simp only [Option.some.injEq, Prod.mk.injEq] at h
          obtain ⟨h1, h2⟩ := h
          subst h2
          have := ih hl
          simp only [List.length_cons]
          omega
    · rw [hs] at h
      simp only [Option.some.injEq, Prod.mk.injEq] at h
      obtain ⟨h1, h2⟩ := h
      subst h2
      exact boldStop_length hs

theorem boldJ_length {full : Line} {mid rem : Line} :
    ∀ {j}, boldJ full j = some (mid, rem) → rem.length < full.length := by
  intro j
  induction j with
  | zero => intro h; cases h
  | succ j ih =>
    intro h
    unfold boldJ at h
    rcases hl : boldLazy (full.drop (j + 1)) with _ | ⟨m, rm⟩
    · rw [hl] at h; exact ih h
    · rw [hl] at h
      cases h
      have h1 := boldLazy_length hl
      have h2 : (full.drop (j + 1)).length ≤ full.length := by
        simp [List.length_drop]
      omega

theorem boldMatch_length {full mid rem : Line}
    (h : boldMatch full = some (mid, rem)) : rem.length < full.length :=
  boldJ_length h

/-- `re.sub(r'\*\*\s+(.*?)\s+\*\*', r'**\1**', line)` as a fuel-indexed
scanner: at a position starting with `**` a match is attempted; on success
the replacement `**`‑group‑`**` is emitted and scanning resumes after the
match, otherwise one character is emitted and the scan advances.  The fuel
only serves structural recursion; `boldSub` supplies enough of it, so the
`0` equation is never reached. -/
def boldSubF : Nat → Line → Line
  | _, [] => []
  | 0, l => l
  | f + 1, c :: rest =>
    if c = '*' ∧ rest.head? = some '*' then
      match boldMatch rest.tail with
      | some (mid, rem) => '*' :: '*' :: (mid ++ '*' :: '*' :: boldSubF f rem)
      | none => '*' :: boldSubF f ('*' :: rest.tail)
    else c :: boldSubF f rest

def boldSub (l : Line) : Line := boldSubF l.length l

/-- The fuel is irrelevant once it covers the length of the text. -/
theorem boldSubF_fuel {f : Nat} : ∀ {g : Nat} {l : Line}, l.length ≤ f →
    l.length ≤ g → boldSubF f l = boldSubF g l := by
  induction f using Nat.strong_induction_on with
  | _ f ih =>
    intro g l hf hg
    match l with
    | [] => cases f <;> cases g <;> simp [boldSubF]
    | c :: rest =>
      simp only [List.length_cons] at hf hg
      match f, g with
      | f' + 1, g' + 1 =>
        simp only [boldSubF]
        by_cases hc : c = '*' ∧ rest.head? = some '*'
        · rw [if_pos hc, if_pos hc]
          obtain ⟨rest', hrest⟩ : ∃ rest', rest = '*' :: rest' := by
            cases rest with
            | nil => simp at hc
            | cons a t => exact ⟨t, by simp at hc; rw [hc.2]⟩
          subst hrest
          simp only [List.tail_cons, List.length_cons] at hf hg ⊢
          rcases hm : boldMatch rest' with _ | ⟨mid, rem⟩
          · dsimp only
            have h1 : ('*' :: rest').length ≤ f' := by
              simp only [List.length_cons]; omega
            have h2 : ('*' :: rest').length ≤ g' := by
              simp only [List.length_cons]; omega
            rw [ih f' (by omega) h1 h2]
          · dsimp only
            have hr := boldMatch_length hm
            have h1 : rem.length ≤ f' := by omega
            have h2 : rem.length ≤ g' := by omega
            rw [ih f' (by omega) h1 h2]
        · rw [if_neg hc, if_neg hc]
          have h1 : rest.length ≤ f' := by omega
          have h2 : rest.length ≤ g' := by omega
          rw [ih f' (by omega) h1 h2]

/-- For `[ \t]+\$(?!\$)`: does `s` begin with the closing delimiter?  Only
the maximal `[ \t]` run can be followed by `$` (shorter widths leave a
space or tab where `$` is required); the negative lookahead rejects a
second `$`. -/
def mathStop (s : Line) : Option Line :=
  if 1 ≤ runLen isSpTab s then
    match s.drop (runLen isSpTab s) with
    | '$' :: tail => if tail.head? = some '$' then none else some tail
    | _ => none
  else none

/-- The lazy `(.*?)` of the inline-math pattern.  (On the empty list
`mathStop` cannot match, `[ \t]+` needing a character.) -/
def mathLazy : Line → Option (Line × Line)
  | [] => none
  | c :: s' =>
    match mathStop (c :: s') with
    | some rem => some ([], rem)
    | none =>
      if c = '\n' then none
      else
        match mathLazy s' with
        | some (mid, rem) => some (c :: mid, rem)
        | none => none

/-- The leading `[ \t]+` is greedy (widths tried from the full run down). -/
def mathJ (full : Line) : Nat → Option (Line × Line)
  | 0 => none
  | j + 1 =>
    match mathLazy (full.drop (j + 1)) with
    | some r => some r
    | none => mathJ full j

/-- Match of `[ \t]+(.*?)[ \t]+\$(?!\$)` against a prefix of `full` (the
text right after an opening `$`). -/
def mathMatch (full : Line) : Option (Line × Line) :=
  mathJ full (runLen isSpTab full)

theorem mathStop_length {s rem : Line} (h : mathStop s = some rem) :
    rem.length < s.length := by
  unfold mathStop at h
  split at h
  · split at h
    · next tail heq =>
      split at h
      · cases h
      · cases h
        have := congrArg List.length heq
        simp only [List.length_drop, List.length_cons] at this
        omega
    · cases h
  · cases h

theorem mathLazy_length {s mid rem : Line} (h : mathLazy s = some (mid, rem)) :
    rem.length < s.length := by
  induction s generalizing mid with
  | nil => cases h
  | cons c s' ih =>
    rw [mathLazy] at h
    rcases hs : mathStop (c :: s') with _ | r
    · rw [hs] at h
      by_cases hc : c = '\n'
      · simp [hc] at h
      · simp only [hc, ite_false] at h
        rcases hl : mathLazy s' with _ | ⟨m, rm⟩
        · rw [hl] at h; cases h
        · rw [hl] at h
          simp only [Option.some.injEq, Prod.mk.injEq] at h
          obtain ⟨h1, h2⟩ := h
          subst h2
          have := ih hl
          simp only [List.length_cons]
          omega
    · rw [hs] at h
      simp only [Option.some.injEq, Prod.mk.injEq] at h
      obtain ⟨h1, h2⟩ := h
      subst h2
      exact mathStop_length hs

theorem mathJ_length {full : Line} {mid rem : Line} :
    ∀ {j}, mathJ full j = some (mid, rem) → rem.length < full.length := by
  intro j
  induction j with
  | zero => intro h; cases h
  | succ j ih =>
    intro h
    unfold mathJ at h
    rcases hl : mathLazy (full.drop (j + 1)) with _ | ⟨m, rm⟩
    · rw [hl] at h; exact ih h
    · rw [hl] at h
      cases h
      have h1 := mathLazy_length hl
      have h2 : (full.drop (j + 1)).length ≤ full.length := by
        simp [List.length_drop]
      omega

theorem mathMatch_length {full mid rem : Line}
    (h : mathMatch full = some (mid, rem)) : rem.length < full.length :=
  mathJ_length h

/-- `re.sub(r'(?<!\$)\$[ \t]+(.*?)[ \t]+\$(?!\$)', r'$\1$', line)` as a
fuel-indexed scanner.  The scanner threads the previous character of the
original text so that the negative lookbehind can be evaluated; after a
replacement the previous character is the closing `$` of the match. -/
def mathSubF : Nat → Option Char → Line → Line
  | _, _, [] => []
  | 0, _, l => l
  | f + 1, prev, c :: rest =>
    if c = '$' then
      if prev = some '$' then '$' :: mathSubF f (some '$') rest
      else
        match mathMatch rest with
        | some (mid, rem) => '$' :: (mid ++ '$' :: mathSubF f (some '$') rem)
        | none => '$' :: mathSubF f (some '$') rest
    else c :: mathSubF f (some c) rest

def mathSub (l : Line) : Line := mathSubF l.length none l

/-- The fuel is irrelevant once it covers the length of the text. -/
theorem mathSubF_fuel {f : Nat} : ∀ {g : Nat} {prev : Option Char} {l : Line},
    l.length ≤ f → l.length ≤ g →
    mathSubF f prev l = mathSubF g prev l := by
  induction f using Nat.strong_induction_on with
  | _ f ih =>
    intro g prev l hf hg
    match l with
    | [] => cases f <;> cases g <;> simp [mathSubF]
    | c :: rest =>
      simp only [List.length_cons] at hf hg
      match f, g with
      | f' + 1, g' + 1 =>
        simp only [mathSubF]
        have h1 : rest.length ≤ f' := by omega
        have h2 : rest.length ≤ g' := by omega
        by_cases hc : c = '$'
        · rw [if_pos hc, if_pos hc]
          by_cases hp : prev = some '$'
          · rw [if_pos hp, if_pos hp, ih f' (by omega) h1 h2]
          · rw [if_neg hp, if_neg hp]
            rcases hm : mathMatch rest with _ | ⟨mid, rem⟩
            · dsimp only
              rw [ih f' (by omega) h1 h2]
            · dsimp only
              have hr := mathMatch_length hm
              have h3 : rem.length ≤ f' := by omega
              have h4 : rem.length ≤ g' := by omega
              rw [ih f' (by omega) h3 h4]
        · rw [if_neg hc, if_neg hc, ih f' (by omega) h1 h2]

def supOpen : Line := ['<', 's', 'u', 'p', '>']
def supClose : Line := ['<', '/', 's', 'u', 'p', '>']

/-- The lazy `(.*?)` of `<sup>(.*?)</sup>`: shortest middle (newline-free)
followed by the literal closing tag.  (The closing tag cannot match the
empty list.) -/
def supLazy : Line → Option (Line × Line)
  | [] => none
  | c :: s' =>
    if isSegAt supClose (c :: s') then some ([], (c :: s').drop 6)
    else if c = '\n' then none
    else
      match supLazy s' with
      | some (mid, rem) => some (c :: mid, rem)
      | none => none

theorem isSegAt_length {p s : Line} (h : isSegAt p s = true) :
    p.length ≤ s.length := by
  induction p generalizing s with
  | nil => simp
  | cons a p' ih =>
    cases s with
    | nil => simp [isSegAt] at h
    | cons c s' =>
      simp only [isSegAt, Bool.and_eq_true] at h
      have := ih h.2
      simp only [List.length_cons]
      omega

theorem supLazy_length {s mid rem : Line} (h : supLazy s = some (mid, rem)) :
    rem.length < s.length := by
  induction s generalizing mid with
  | nil => cases h
  | cons c s' ih =>
    rw [supLazy] at h
    by_cases hseg : isSegAt supClose (c :: s') = true
    · rw [if_pos hseg] at h
      cases h
      have hlen : 6 ≤ (c :: s').length := isSegAt_length hseg
      simp only [List.length_drop]
      omega
    · rw [if_neg hseg] at h
      by_cases hc : c = '\n'
      · simp [hc] at h
      · simp only [hc, ite_false] at h
        rcases hl : supLazy s' with _ | ⟨m, rm⟩
        · rw [hl] at h; cases h
        · rw [hl] at h
          simp only [Option.some.injEq, Prod.mk.injEq] at h
          obtain ⟨h1, h2⟩ := h
          subst h2
          have := ih hl
          simp only [List.length_cons]
          omega

/-- `re.sub(r'<sup>(.*?)</sup>', r'^\1^', line)` as a fuel-indexed
scanner: where the literal `<sup>` occurs a lazy match for the closing tag
is attempted; on failure the scan advances a single character. -/
def supSubF : Nat → Line → Line
  | _, [] => []
  | 0, l => l
  | f + 1, c :: rest =>
    if c = '<' ∧ isSegAt ['s', 'u', 'p', '>'] rest then
      match supLazy (rest.drop 4) with
      | some (mid, rem) => '^' :: (mid ++ '^' :: supSubF f rem)
      | none => c :: supSubF f rest
    else c :: supSubF f rest

def supSub (l : Line) : Line := supSubF l.length l

/-- The fuel is irrelevant once it covers the length of the text. -/
theorem supSubF_fuel {f : Nat} : ∀ {g : Nat} {l : Line}, l.length ≤ f →
    l.length ≤ g → supSubF f l = supSubF g l := by
  induction f using Nat.strong_induction_on with
  | _ f ih =>
    intro g l hf hg
    match l with
    | [] => cases f <;> cases g <;> simp [supSubF]
    | c :: rest =>
      simp only [List.length_cons] at hf hg
      match f, g with
      | f' + 1, g' + 1 =>
        simp only [supSubF]
        have h1 : rest.length ≤ f' := by omega
        have h2 : rest.length ≤ g' := by omega
        by_cases hc : c = '<' ∧ isSegAt ['s', 'u', 'p', '>'] rest = true
        · rw [if_pos hc, if_pos hc]
          rcases hm : supLazy (rest.drop 4) with _ | ⟨mid, rem⟩
          · dsimp only
            rw [ih f' (by omega) h1 h2]
          · dsimp only
            have hr := supLazy_length hm
            have hd : (rest.drop 4).length ≤ rest.length := by
              simp [List.length_drop]
            have h3 : rem.length ≤ f' := by omega
            have h4 : rem.length ≤ g' := by omega
            rw [ih f' (by omega) h3 h4]
        · rw [if_neg hc, if_neg hc, ih f' (by omega) h1 h2]

/-- The per-line repairs applied to a prose line, in source order (heading,
quote, unordered list, ordered list, bold, inline math, `<sup>`).  The
`'**' in line` / `'$' in line` / `'<sup>' in line` guards are kept; the
additional `re_bold_fix.search` guard in the source is redundant (a `re.sub`
with no match already leaves the line unchanged). -/
def repairLine (l : Line) : Line :=
  let l1 := headingFix l
  let l2 := quoteFix l1
  let l3 := ulFix l2
  let l4 := olFix l3
  let l5 := if hasSeg ['*', '*'] l4 then boldSub l4 else l4
  let l6 := if l5.contains '$' then mathSub l5 else l5
  if hasSeg supOpen l6 then supSub l6 else l6

/-- `is_prev_empty = not prev_line.strip()`. -/
def isBlank (l : Line) : Bool := l.all pyIsSpace

/-- Rules 1–4 of the blank-line injection: which separators are emitted
before the repaired line `cur`, given the raw previous input line `prev`
(the source reads `lines[i-1]`, the pre-pass output, not the previously
emitted line). -/
def blanksBefore (prev cur : Line) : List Line :=
  if reQuoteStd cur then
    if !isBlank prev && !reQuoteStd prev then [[]] else []
  else if reUlStd cur then
    if !isBlank prev && !reUlStd prev then [[]] else []
  else if reOlStd cur then
    if !isBlank prev && !reOlStd prev then [[]] else []
  else if reHeadingStd cur then
    if !isBlank prev then [[]] else []
  else if reHr cur then
    if !isBlank prev then [[]] else []
  else []

/-- Result of the line scan: emitted lines, terminal fence state, and
whether the heading-spacing log entry fired. -/
structure ScanRes where
  out : List Line
  final : Bool
  hflag : Bool

/-- The per-line loop of `smart_fix_markdown`: `prev` is `lines[i-1]` (raw,
`""` for the first line), `i` the current index, `inCode` the fence state.
A fence-marker line toggles the state and is emitted verbatim; a line inside
a code block is emitted verbatim; otherwise the line is repaired, separators
are injected before it (and after it when it is a horizontal rule), and the
heading log fires when `re_heading` matched within the first five lines. -/
def scanAux (prev : Line) (i : Nat) (inCode : Bool) (hf : Bool) :
    List Line → ScanRes
  | [] => ⟨[], inCode, hf⟩
  | l :: ls =>
    if isFence l then
      let r := scanAux l (i + 1) (!inCode) hf ls
      ⟨l :: r.out, r.final, r.hflag⟩
    else if inCode then
      let r := scanAux l (i + 1) inCode hf ls
      ⟨l :: r.out, r.final, r.hflag⟩
    else
      let hf' := hf || ((reHeading l).isSome && decide (i < 5))
      let l' := repairLine l
      let r := scanAux l (i + 1) inCode hf' ls
      ⟨blanksBefore prev l' ++ l' :: ((if reHr l' then [[]] else []) ++ r.out),
        r.final, r.hflag⟩

/-- The emission of a pending maximal newline run under
`re.sub(r'\n{4,}', r'\n\n', …)`: runs of four or more newlines become
exactly two, shorter runs are kept. -/
def emitNl (k : Nat) : Line :=
  if 4 ≤ k then ['\n', '\n'] else List.replicate k '\n'

/-- Step 6, `re.sub(r'\n{4,}', r'\n\n', fixed_text)`, as a scan that counts
the current run of consecutive newlines (`k`) and flushes it through
`emitNl` at each non-newline character and at the end of the text. -/
def collapseAux (k : Nat) : Line → Line
  | [] => emitNl k
  | c :: cs =>
    if c = '\n' then collapseAux (k + 1) cs
    else emitNl k ++ c :: collapseAux 0 cs

def collapseNl (l : Line) : Line := collapseAux 0 l

def zwspMsg : String := "🧹 移除了隐形字符"
def blockMsg : String := "📐 标准化块级公式"
def inlineMsg : String := "📐 标准化行内公式"
def headingMsg : String := "🔨 修复了标题缺少空格"
def closureMsg : String := "🧱 自动闭合了未结束的代码块"

/-- The returned log, `list(set(log))` in the source: the set of distinct
entries that fired.  CPython's set iteration order is unspecified, so the
embedding fixes the append order of the source as the canonical order; all
properties proved about the log are order-independent (membership,
distinctness, emptiness). -/
def buildLog (zf bf inl hf cf : Bool) : List String :=
  (if zf then [zwspMsg] else []) ++ (if bf then [blockMsg] else []) ++
  (if inl then [inlineMsg] else []) ++ (if hf then [headingMsg] else []) ++
  (if cf then [closureMsg] else [])

/-- `smart_fix_markdown(text)` from `src/app.py`: empty input is returned
untouched; otherwise the global pre-pass runs, the text is split into lines
and scanned, a missing closing fence is appended as `"\n```"`, runs of four
or more newlines are collapsed, and the de-duplicated log is returned. -/
def smart_fix_markdown (t : Line) : Line × List String :=
  if t = [] then (t, [])
  else
    let p := prePass t
    let r := scanAux [] 0 false false (splitNl p.text)
    let s1 := joinNl r.out
    let s2 := if r.final then s1 ++ '\n' :: [tick, tick, tick] else s1
    (collapseNl s2, buildLog p.zf p.bf p.inf r.hflag r.final)

/-! ### Basic facts about lines, splitting and joining -/

def filterNE (ls : List Line) : List Line := ls.filter (fun l => !l.isEmpty)

def fenceCount (ls : List Line) : Nat := ls.countP isFence

/-- Non-overlapping, left-to-right count of the two-character block-math
token `$$` in a text (the count `text.count("$$")` would compute). -/
def countDD : Line → Nat
  | c :: d :: rest =>
    if c = '$' ∧ d = '$' then 1 + countDD rest else countDD (d :: rest)
  | _ => 0

/-- Tracks, along a list of lines, that every line met in prose state
cannot match `re_heading` (fence lines toggle the state, code lines are
skipped).  This is the exact condition under which a scan adds no
heading-log entry. -/
def goodLines : Bool → List Line → Bool
  | _, [] => true
  | ic, l :: ls =>
    if isFence l then goodLines (!ic) ls
    else if ic then goodLines ic ls
    else decide (reHeading l = none) && goodLines ic ls

/-- The character class `\S` (any non-whitespace character) applied to an
optional character. -/
def classNotWs : Option Char → Bool
  | some c => !pyIsSpace c
  | none => false

/-- Backtracking matcher for the SPECIFICATION's heading pattern
`^(#{1,6})(\S)` (this definition follows the spec's words, not the source;
it exists only to be compared with `reHeading`, whose class is `[^ #]`). -/
def reHeadingSpecTry (l : Line) : Nat → Option Nat
  | 0 => none
  | j + 1 =>
    if (l.take (j + 1)).length = j + 1 ∧ (l.take (j + 1)).all (· = '#')
        ∧ classNotWs (l.get? (j + 1)) then some (j + 1)
    else reHeadingSpecTry l j

/-- The spec's `^(#{1,6})(\S)` via `.match` (see `reHeadingSpecTry`). -/
def reHeadingSpec (l : Line) : Option Nat := reHeadingSpecTry l 6

theorem isFence_nil : isFence [] = false := by decide

theorem splitNl_nil : splitNl [] = [[]] := rfl

theorem splitNl_cons_nl (cs : Line) : splitNl ('\n' :: cs) = [] :: splitNl cs := by
  rw [splitNl]
  simp

theorem splitNl_ne_nil (l : Line) : splitNl l ≠ [] := by
  induction l with
  | nil => simp [splitNl]
  | cons c cs ih =>
    rw [splitNl]
    by_cases hc : c = '\n'
    · simp [hc]
    · simp only [hc, ite_false]
      rcases hs : splitNl cs with _ | ⟨h, t⟩ <;> simp

theorem splitNl_dest (cs : Line) : ∃ h t, splitNl cs = h :: t := by
  rcases hq : splitNl cs with _ | ⟨h, t⟩
  · exact absurd hq (splitNl_ne_nil cs)
  · exact ⟨h, t, rfl⟩

theorem splitNl_cons_of {c : Char} {cs h : Line} {t : List Line}
    (hc : c ≠ '\n') (hs : splitNl cs = h :: t) :
    splitNl (c :: cs) = (c :: h) :: t := by
  rw [splitNl]
  simp only [hc, ite_false]
  rw [hs]

theorem splitNl_no_nl (l : Line) : ∀ x ∈ splitNl l, '\n' ∉ x := by
  induction l with
  | nil => intro x hx; simp [splitNl] at hx; simp [hx]
  | cons c cs ih =>
    intro x hx
    by_cases hc : c = '\n'
    · subst hc
      rw [splitNl_cons_nl] at hx
      rcases List.mem_cons.mp hx with hx | hx
      · simp [hx]
      · exact ih x hx
    · obtain ⟨h, t, hs⟩ := splitNl_dest cs
      rw [splitNl_cons_of hc hs] at hx
      rcases List.mem_cons.mp hx with hx | hx
      · subst hx
        intro hmem
        rcases List.mem_cons.mp hmem with h1 | h1
        · exact hc h1.symm
        · exact ih h (by rw [hs]; exact List.mem_cons_self h t) h1
      · exact ih x (by rw [hs]; exact List.mem_cons_of_mem h hx)

theorem splitNl_append (a b : Line) :
    splitNl (a ++ '\n' :: b) = splitNl a ++ splitNl b := by
  induction a with
  | nil => simp [splitNl_cons_nl, splitNl_nil]
  | cons c cs ih =>
    by_cases hc : c = '\n'
    · subst hc
      rw [List.cons_append, splitNl_cons_nl, splitNl_cons_nl, ih]
      rfl
    · obtain ⟨h, t, hs⟩ := splitNl_dest cs
      have h2 : splitNl (cs ++ '\n' :: b) = h :: (t ++ splitNl b) := by
        rw [ih, hs]; rfl
      rw [List.cons_append, splitNl_cons_of hc h2, splitNl_cons_of hc hs]
      rfl

theorem splitNl_single {l : Line} (h : '\n' ∉ l) : splitNl l = [l] := by
  induction l with
  | nil => rfl
  | cons c cs ih =>
    have hc : c ≠ '\n' := fun hcc => h (by simp [hcc])
    have hcs := ih (fun hm => h (List.mem_cons_of_mem c hm))
    rw [splitNl_cons_of hc hcs]

theorem splitNl_joinNl : ∀ (ls : List Line), (∀ x ∈ ls, '\n' ∉ x) → ls ≠ [] →
    splitNl (joinNl ls) = ls := by
  intro ls
  induction ls with
  | nil => intro _ hne; exact absurd rfl hne
  | cons l ls ih =>
    intro h _
    rcases ls with _ | ⟨l2, ls'⟩
    · exact splitNl_single (h l (by simp))
    · have hrec : splitNl (joinNl (l2 :: ls')) = l2 :: ls' :=
        ih (fun x hx => h x (List.mem_cons_of_mem l hx)) (by simp)
      show splitNl (l ++ '\n' :: joinNl (l2 :: ls')) = _
      rw [splitNl_append, splitNl_single (h l (by simp)), hrec]
      rfl

/-! ### Adjacent-pair freedom (absence of a two-character substring) -/

def pairFree (a b : Char) : Line → Bool
  | [] => true
  | [_] => true
  | c :: d :: rest => !decide (c = a ∧ d = b) && pairFree a b (d :: rest)

theorem hasSeg_pair_eq (a b : Char) (l : Line) :
    hasSeg [a, b] l = !pairFree a b l := by
  induction l with
  | nil => rfl
  | cons c cs ih =>
    rcases cs with _ | ⟨d, rest⟩
    · simp [hasSeg, isSegAt, pairFree]
    · rw [hasSeg, ih, pairFree]
      simp only [isSegAt, Bool.and_true]
      by_cases h1 : a = c <;> by_cases h2 : b = d <;>
        simp [h1, h2, eq_comm]

theorem pairFree_of_hasSeg_eq_false {a b : Char} {l : Line}
    (h : hasSeg [a, b] l = false) : pairFree a b l = true := by
  rw [hasSeg_pair_eq] at h
  simp at h
  exact h

theorem pairFree_tail {a b : Char} {c : Char} {l : Line}
    (h : pairFree a b (c :: l) = true) : pairFree a b l = true := by
  rcases l with _ | ⟨d, rest⟩
  · rfl
  · rw [pairFree, Bool.and_eq_true] at h
    exact h.2

theorem pairFree_cons_of_ne {a b c : Char} {l : Line} (hc : c ≠ a)
    (h : pairFree a b l = true) : pairFree a b (c :: l) = true := by
  rcases l with _ | ⟨d, rest⟩
  · rfl
  · rw [pairFree, Bool.and_eq_true]
    exact ⟨by simp [hc], h⟩

theorem pairFree_cons_of_head_ne {a b c : Char} {l : Line}
    (hh : ∀ d, l.head? = some d → d ≠ b)
    (h : pairFree a b l = true) : pairFree a b (c :: l) = true := by
  rcases l with _ | ⟨d, rest⟩
  · rfl
  · rw [pairFree, Bool.and_eq_true]
    refine ⟨?_, h⟩
    have := hh d rfl
    simp [this]

theorem pairFree_append_left {a b : Char} : ∀ {x y : Line},
    pairFree a b (x ++ y) = true → pairFree a b x = true := by
  intro x
  induction x with
  | nil => intro y _; rfl
  | cons c cs ih =>
    intro y h
    rcases cs with _ | ⟨d, rest⟩
    · rfl
    · rw [List.cons_append, List.cons_append, pairFree, Bool.and_eq_true] at h
      rw [pairFree, Bool.and_eq_true]
      refine ⟨h.1, @ih y ?_⟩
      rw [List.cons_append]
      exact h.2

theorem pairFree_append_right {a b : Char} : ∀ {x y : Line},
    pairFree a b (x ++ y) = true → pairFree a b y = true := by
  intro x
  induction x with
  | nil => intro y h; exact h
  | cons c cs ih =>
    intro y h
    apply ih
    rcases cs with _ | ⟨d, rest⟩
    · exact pairFree_tail h
    · exact pairFree_tail h

theorem pairFree_append_intro {a b : Char} : ∀ {x y : Line},
    pairFree a b x = true → pairFree a b y = true →
    (∀ cx, x.getLast? = some cx → ∀ cy, y.head? = some cy → ¬(cx = a ∧ cy = b)) →
    pairFree a b (x ++ y) = true := by
  intro x
  induction x with
  | nil => intro y _ hy _; exact hy
  | cons c cs ih =>
    intro y hx hy hb
    rcases cs with _ | ⟨d, rest⟩
    · rcases y with _ | ⟨e, ys⟩
      · rfl
      · rw [List.cons_append, List.nil_append, pairFree, Bool.and_eq_true]
        refine ⟨?_, hy⟩
        have := hb c rfl e rfl
        simp only [Bool.not_eq_eq_eq_not, Bool.not_true, decide_eq_false_iff_not]
        exact this
    · rw [List.cons_append, List.cons_append, pairFree, Bool.and_eq_true]
      rw [pairFree, Bool.and_eq_true] at hx
      refine ⟨hx.1, ?_⟩
      rw [← List.cons_append]
      exact ih hx.2 hy (fun cx hcx => hb cx (by rw [List.getLast?_cons_cons]; exact hcx))

theorem mem_joinNl {c : Char} : ∀ {ls : List Line}, c ∈ joinNl ls →
    (∃ l ∈ ls, c ∈ l) ∨ c = '\n' := by
  intro ls
  induction ls with
  | nil => intro h; simp [joinNl] at h
  | cons l ls ih =>
    intro h
    rcases ls with _ | ⟨l2, ls'⟩
    · exact Or.inl ⟨l, by simp, h⟩
    · rw [show joinNl (l :: l2 :: ls') = l ++ '\n' :: joinNl (l2 :: ls') from rfl,
        List.mem_append] at h
      rcases h with h | h
      · exact Or.inl ⟨l, by simp, h⟩
      · rcases List.mem_cons.mp h with h | h
        · exact Or.inr h
        · rcases ih h with ⟨l', hl', hc⟩ | h
          · exact Or.inl ⟨l', List.mem_cons_of_mem l hl', hc⟩
          · exact Or.inr h

theorem pairFree_joinNl {a b : Char} (ha : '\n' ≠ a) (hb : '\n' ≠ b) :
    ∀ {ls : List Line}, (∀ l ∈ ls, pairFree a b l = true) →
    pairFree a b (joinNl ls) = true := by
  intro ls
  induction ls with
  | nil => intro _; rfl
  | cons l ls ih =>
    intro h
    rcases ls with _ | ⟨l2, ls'⟩
    · exact h l (by simp)
    · show pairFree a b (l ++ '\n' :: joinNl (l2 :: ls')) = true
      refine pairFree_append_intro (h l (by simp)) ?_ ?_
      · exact pairFree_cons_of_ne ha
          (ih (fun x hx => h x (List.mem_cons_of_mem l hx)))
      · intro cx _ cy hcy
        simp only [List.head?_cons, Option.some.injEq] at hcy
        intro hab
        exact hb (hcy ▸ hab.2.symm ▸ rfl)

/-! ### Runs, whitespace prefixes, and first-difference congruences -/

theorem runLen_le_length (p : Char → Bool) (l : Line) : runLen p l ≤ l.length := by
  induction l with
  | nil => simp [runLen]
  | cons c cs ih =>
    rw [runLen]
    split
    · simp only [List.length_cons]; omega
    · simp

theorem runLen_append (p : Char → Bool) (w x : Line) :
    runLen p (w ++ x) = if w.all p then w.length + runLen p x else runLen p w := by
  induction w with
  | nil => simp
  | cons c cs ih =>
    rw [List.cons_append, runLen, runLen, ih]
    by_cases hc : p c
    · simp only [hc, ite_true, List.all_cons, Bool.true_and, List.length_cons]
      split <;> omega
    · simp [hc]

theorem runLen_replicate_ne (p : Char → Bool) (j : Nat) (c : Char) (hc : p c = true)
    (x : Line) (hx : ∀ d, x.head? = some d → p d = false) :
    runLen p (List.replicate j c ++ x) = j := by
  induction j with
  | zero =>
    simp only [List.replicate, List.nil_append]
    cases x with
    | nil => rfl
    | cons d t =>
      rw [runLen]
      have := hx d rfl
      simp [this]
  | succ j ih =>
    rw [List.replicate, List.cons_append, runLen]
    simp [hc, ih]

theorem runLen_get_lt (p : Char → Bool) : ∀ (l : Line) (i : Nat),
    i < runLen p l → ∃ c, l.get? i = some c ∧ p c = true := by
  intro l
  induction l with
  | nil => intro i h; simp [runLen] at h
  | cons c cs ih =>
    intro i h
    rw [runLen] at h
    by_cases hc : p c
    · simp only [hc, ite_true] at h
      cases i with
      | zero => exact ⟨c, rfl, hc⟩
      | succ i => exact ih i (by omega)
    · simp [hc] at h

theorem runLen_all_take (p : Char → Bool) : ∀ (l : Line) (m : Nat),
    ((l.take m).length = m ∧ (l.take m).all p = true) ↔ m ≤ runLen p l := by
  intro l
  induction l with
  | nil =>
    intro m
    cases m <;> simp [runLen]
  | cons c cs ih =>
    intro m
    cases m with
    | zero => simp
    | succ m =>
      rw [List.take_succ_cons, runLen]
      by_cases hc : p c
      · rw [if_pos hc]
        simp only [List.length_cons, List.all_cons, hc, Bool.true_and]
        constructor
        · intro ⟨h1, h2⟩
          have := (ih m).mp ⟨by omega, h2⟩
          omega
        · intro h
          obtain ⟨h1, h2⟩ := (ih m).mpr (by omega)
          exact ⟨by omega, h2⟩
      · rw [if_neg hc]
        simp only [List.length_cons, List.all_cons]
        constructor
        · intro ⟨h1, h2⟩
          rw [Bool.and_eq_true] at h2
          exact absurd h2.1 (by simp [hc])
        · intro h; omega

theorem runLen_eq_length_of_all {p : Char → Bool} {l : Line}
    (h : l.all p = true) : runLen p l = l.length := by
  induction l with
  | nil => rfl
  | cons c cs ih =>
    rw [List.all_cons, Bool.and_eq_true] at h
    rw [runLen]
    simp [h.1, ih h.2]

theorem runLen_lt_of_not_all {p : Char → Bool} {l : Line}
    (h : ¬ l.all p = true) : runLen p l < l.length := by
  have hle := runLen_le_length p l
  rcases Nat.lt_or_ge (runLen p l) l.length with hlt | hge
  · exact hlt
  · exfalso
    apply h
    have heq : runLen p l = l.length := by omega
    rw [List.all_eq_true]
    intro x hx
    obtain ⟨i, hget⟩ := List.get?_of_mem hx
    have hilt : i < l.length := (List.get?_eq_some.mp hget).1
    obtain ⟨c, hc, hpc⟩ := runLen_get_lt p l i (by rw [heq]; exact hilt)
    rw [hget] at hc
    injection hc with hc2
    rw [hc2]
    exact hpc

theorem dropWhile_append_all {w x : Line} (h : w.all pyIsSpace = true) :
    (w ++ x).dropWhile pyIsSpace = x.dropWhile pyIsSpace := by
  induction w with
  | nil => simp
  | cons c cs ih =>
    rw [List.all_cons, Bool.and_eq_true] at h
    rw [List.cons_append, List.dropWhile_cons]
    simp [h.1, ih h.2]

theorem dropWhile_append_not_all {w : Line} (h : ¬ w.all pyIsSpace = true) (x : Line) :
    (w ++ x).dropWhile pyIsSpace = w.dropWhile pyIsSpace ++ x ∧
      w.dropWhile pyIsSpace ≠ [] := by
  induction w with
  | nil => simp at h
  | cons c cs ih =>
    rw [List.cons_append, List.dropWhile_cons, List.dropWhile_cons]
    by_cases hc : pyIsSpace c
    · have hcs : ¬ cs.all pyIsSpace = true := by
        intro hall; exact h (by simp [List.all_cons, hc, hall])
      simp only [hc, ite_true]
      exact ih hcs
    · simp [hc]

theorem isSegAt_nil (s : Line) : isSegAt [] s = true := by cases s <;> rfl

theorem isSegAt_cons_nil (p : Char) (ps : Line) : isSegAt (p :: ps) [] = false := rfl

theorem isSegAt_cons_cons (p c : Char) (ps cs : Line) :
    isSegAt (p :: ps) (c :: cs) = ((p = c) && isSegAt ps cs) := rfl

theorem isSegAt_append_congr {pat : Line} {d d' : Char}
    (hd : ∀ x ∈ pat, d ≠ x) (hd' : ∀ x ∈ pat, d' ≠ x) :
    ∀ (q t t' : Line), q ≠ [] →
    isSegAt pat (q ++ d :: t) = isSegAt pat (q ++ d' :: t') := by
  induction pat with
  | nil => intro q t t' _; rfl
  | cons a pat' ih =>
    intro q t t' hq
    rcases q with _ | ⟨q0, q'⟩
    · exact absurd rfl hq
    · rw [List.cons_append, isSegAt_cons_cons, List.cons_append, isSegAt_cons_cons]
      rcases q' with _ | ⟨q1, q''⟩
      · simp only [List.nil_append]
        rcases pat' with _ | ⟨b, pat''⟩
        · simp [isSegAt_nil]
        · rw [isSegAt_cons_cons, isSegAt_cons_cons]
          have h1 : (b = d) = False := by
            simp [Ne.symm (hd b (by simp))]
          have h2 : (b = d') = False := by
            simp [Ne.symm (hd' b (by simp))]
          simp [h1, h2]
      · have := ih (fun x hx => hd x (List.mem_cons_of_mem a hx))
          (fun x hx => hd' x (List.mem_cons_of_mem a hx)) (q1 :: q'') t t' (by simp)
        rw [this]

theorem isFence_head_not_space {c : Char} (hc : ¬ pyIsSpace c = true)
    (hct : c ≠ tick) (l : Line) : isFence (c :: l) = false := by
  rw [isFence, List.dropWhile_cons]
  simp only [hc, Bool.false_eq_true, ite_false]
  rw [isSegAt_cons_cons]
  have : (tick = c) = False := by simp [Ne.symm hct]
  simp [this]

/-- A change of the text at its first difference position does not affect
fence-marker status, provided neither character is whitespace or a
backquote. -/
theorem isFence_append_congr {d d' : Char}
    (hd : ¬ pyIsSpace d = true) (hdt : d ≠ tick)
    (hd' : ¬ pyIsSpace d' = true) (hdt' : d' ≠ tick) (p t t' : Line) :
    isFence (p ++ d :: t) = isFence (p ++ d' :: t') := by
  by_cases hall : p.all pyIsSpace = true
  · rw [isFence, isFence, dropWhile_append_all hall, dropWhile_append_all hall,
      List.dropWhile_cons, List.dropWhile_cons]
    simp only [hd, hd', Bool.false_eq_true, ite_false]
    rw [isSegAt_cons_cons, isSegAt_cons_cons]
    have h1 : (tick = d) = False := by simp [Ne.symm hdt]
    have h2 : (tick = d') = False := by simp [Ne.symm hdt']
    simp [h1, h2]
  · obtain ⟨he, hne⟩ := dropWhile_append_not_all hall (d :: t)
    obtain ⟨he', _⟩ := dropWhile_append_not_all hall (d' :: t')
    rw [isFence, isFence, he, he']
    have hmem : ∀ x ∈ [tick, tick, tick], d ≠ x ∧ d' ≠ x := by
      intro x hx
      rcases List.mem_cons.mp hx with h | h
      · exact ⟨h ▸ hdt, h ▸ hdt'⟩
      · rcases List.mem_cons.mp h with h | h
        · exact ⟨h ▸ hdt, h ▸ hdt'⟩
        · rcases List.mem_cons.mp h with h | h
          · exact ⟨h ▸ hdt, h ▸ hdt'⟩
          · simp at h
    exact isSegAt_append_congr (fun x hx => (hmem x hx).1)
      (fun x hx => (hmem x hx).2) _ t t' hne

/-! ### Characterizations of the anchored matchers and spacing fixes -/

theorem take_append_len (w x : Line) (n : Nat) :
    (w ++ x).take (w.length + n) = w ++ x.take n := by
  induction w with
  | nil => simp
  | cons c cs ih =>
    rw [List.cons_append, List.length_cons]
    have : cs.length + 1 + n = (cs.length + n) + 1 := by omega
    rw [this, List.take_succ_cons, ih]
    rfl

theorem drop_append_len (w x : Line) (n : Nat) :
    (w ++ x).drop (w.length + n) = x.drop n := by
  induction w with
  | nil => simp
  | cons c cs ih =>
    rw [List.cons_append, List.length_cons]
    have : cs.length + 1 + n = (cs.length + n) + 1 := by omega
    rw [this, List.drop_succ_cons, ih]

/-- The backtracking loop of `^(#{1,6})([^ #])` succeeds exactly at the
maximal hash run (any shorter width sees `#` next, which the class refuses;
longer widths fail the literal repetition). -/
theorem reHeadingTry_spec (l : Line) : ∀ (j : Nat),
    reHeadingTry l j =
      if 1 ≤ runLen (· = '#') l ∧ runLen (· = '#') l ≤ j ∧
          classNotSpaceHash (l.get? (runLen (· = '#') l)) = true then
        some (runLen (· = '#') l)
      else none := by
  intro j
  induction j with
  | zero =>
    rw [reHeadingTry, if_neg]
    rintro ⟨h1, h2, _⟩
    omega
  | succ j ih =>
    have hr := runLen_all_take (· = '#') l (j + 1)
    rw [reHeadingTry]
    rcases Nat.lt_or_ge j (runLen (· = '#') l) with hk | hk
    · -- j + 1 ≤ runLen: the literal part matches at width j+1
      obtain ⟨h1, h2⟩ := hr.mpr (by omega)
      rcases Nat.lt_or_ge (j + 1) (runLen (· = '#') l) with hlt | hge
      · -- strictly below the run: the class sees another '#'
        obtain ⟨c, hc, hpc⟩ := runLen_get_lt _ l (j + 1) hlt
        have hcc : c = '#' := by simpa using hpc
        subst hcc
        have hclass : classNotSpaceHash (l.get? (j + 1)) = false := by
          rw [hc]; rfl
        rw [if_neg (by rintro ⟨_, _, h3⟩; rw [hclass] at h3; cases h3), ih,
          if_neg (by rintro ⟨_, h2', _⟩; omega), if_neg (by rintro ⟨_, h2', _⟩; omega)]
      · -- exactly the run
        have hkeq : runLen (· = '#') l = j + 1 := by omega
        by_cases hcl : classNotSpaceHash (l.get? (j + 1)) = true
        · rw [if_pos ⟨h1, h2, hcl⟩, if_pos ⟨by omega, by omega, by rw [hkeq]; exact hcl⟩,
            hkeq]
        · rw [if_neg (by rintro ⟨_, _, h3⟩; exact hcl h3), ih,
            if_neg (by rintro ⟨_, h2', _⟩; omega),
            if_neg (by rintro ⟨_, _, h3⟩; rw [hkeq] at h3; exact hcl h3)]
    · -- the run is too short for width j+1
      rw [if_neg (by
        rintro ⟨h1, _, _⟩
        have := hr.mp ⟨h1, by assumption⟩
        omega), ih]
      by_cases hcond : 1 ≤ runLen (· = '#') l ∧ runLen (· = '#') l ≤ j ∧
          classNotSpaceHash (l.get? (runLen (· = '#') l)) = true
      · rw [if_pos hcond, if_pos ⟨hcond.1, by omega, hcond.2.2⟩]
      · rw [if_neg hcond, if_neg (by
          rintro ⟨a1, a2, a3⟩
          exact hcond ⟨a1, by omega, a3⟩)]

/-- `re_heading` matches iff the maximal leading hash run has length 1–6 and
the next character exists and is neither a space nor a hash. -/
theorem reHeading_spec (l : Line) :
    reHeading l =
      if 1 ≤ runLen (· = '#') l ∧ runLen (· = '#') l ≤ 6 ∧
          classNotSpaceHash (l.get? (runLen (· = '#') l)) = true then
        some (runLen (· = '#') l)
      else none := reHeadingTry_spec l 6

theorem reHeading_some {l : Line} {j : Nat} (h : reHeading l = some j) :
    j = runLen (· = '#') l ∧ 1 ≤ j ∧ j ≤ 6 ∧
      classNotSpaceHash (l.get? j) = true := by
  rw [reHeading_spec] at h
  split at h
  · next hc =>
    injection h with h2
    exact ⟨h2.symm, h2 ▸ hc.1, h2 ▸ hc.2.1, h2 ▸ hc.2.2⟩
  · cases h

theorem take_eq_replicate_of_run {p : Char → Bool} {l : Line} {j : Nat} {c : Char}
    (hj : j ≤ runLen p l) (hc : ∀ d, p d = true → d = c) :
    l.take j = List.replicate j c := by
  obtain ⟨h1, h2⟩ := (runLen_all_take p l j).mpr hj
  apply List.eq_replicate.mpr
  refine ⟨h1, ?_⟩
  intro b hb
  exact hc b (by rw [List.all_eq_true] at h2; exact h2 b hb)

theorem headingFix_eq_of_some {l : Line} {j : Nat} (h : reHeading l = some j) :
    headingFix l = List.replicate j '#' ++ ' ' :: l.drop j := by
  obtain ⟨hj, h1, h6, hcl⟩ := reHeading_some h
  have htake : l.take j = List.replicate j '#' :=
    take_eq_replicate_of_run (p := (· = '#')) (by omega) (fun d hd => by simpa using hd)
  rw [headingFix, h]
  dsimp only
  rw [htake]

theorem headingFix_eq_of_none {l : Line} (h : reHeading l = none) :
    headingFix l = l := by
  rw [headingFix, h]

/-- After the heading fix, `re_heading` can no longer match (the inserted
space sits right after the hash run). -/
theorem reHeading_headingFix (l : Line) : reHeading (headingFix l) = none := by
  rcases hm : reHeading l with _ | j
  · rw [headingFix_eq_of_none hm]; exact hm
  · obtain ⟨hj, h1, h6, hcl⟩ := reHeading_some hm
    rw [headingFix_eq_of_some hm, reHeading_spec, if_neg]
    rintro ⟨_, _, h3⟩
    have hrun : runLen (· = '#') (List.replicate j '#' ++ ' ' :: l.drop j) = j :=
      runLen_replicate_ne _ j '#' (by decide) _ (by
        intro d hd
        injection hd with hd2
        rw [← hd2]
        decide)
    rw [hrun] at h3
    rw [List.get?_append_right (by simp)] at h3
    simp only [List.length_replicate, Nat.sub_self] at h3
    cases h3

theorem reQuoteTry_le {l : Line} : ∀ {j i : Nat}, reQuoteTry l j = some i →
    1 ≤ i ∧ i ≤ j := by
  intro j
  induction j with
  | zero => intro i h; cases h
  | succ j ih =>
    intro i h
    rw [reQuoteTry] at h
    split at h
    · injection h with h2; omega
    · have := ih h; omega

theorem reQuote_some {l : Line} {j : Nat} (h : reQuote l = some j) :
    1 ≤ j ∧ quoteFix l = List.replicate j '>' ++ ' ' :: l.drop j := by
  have hle := reQuoteTry_le (l := l) h
  have htake : l.take j = List.replicate j '>' :=
    take_eq_replicate_of_run (p := (· = '>')) (by exact hle.2)
      (fun d hd => by simpa using hd)
  refine ⟨hle.1, ?_⟩
  rw [quoteFix, h]
  dsimp only
  rw [htake]

theorem quoteFix_eq_of_none {l : Line} (h : reQuote l = none) : quoteFix l = l := by
  rw [quoteFix, h]

theorem isUlMark_props {m : Char} (h : isUlMark m = true) :
    pyIsSpace m = false ∧ m ≠ tick ∧ m ≠ '#' := by
  rw [isUlMark] at h
  rcases Bool.or_eq_true_iff.mp h with h1 | h1
  · rcases Bool.or_eq_true_iff.mp h1 with h2 | h2 <;>
      · have : m = '-' ∨ m = '*' := by
          rcases Bool.or_eq_true_iff.mp h1 with h3 | h3
          · exact Or.inl (by simpa using h3)
          · exact Or.inr (by simpa using h3)
        rcases this with rfl | rfl <;> exact ⟨rfl, by decide, by decide⟩
  · have : m = '+' := by simpa using h1
    subst this
    exact ⟨rfl, by decide, by decide⟩

theorem reUl_some {l : Line} {j : Nat} (h : reUl l = some j) :
    ∃ w m c r, l = w ++ m :: c :: r ∧ w.all pyIsSpace = true ∧
      isUlMark m = true ∧ c ≠ ' ' ∧ c ≠ '\n' ∧
      ulFix l = w ++ m :: ' ' :: c :: r := by
  have h0 := h
  rcases hd : l.dropWhile pyIsSpace with _ | ⟨m, _ | ⟨c, r⟩⟩ <;>
    simp only [reUl, hd] at h
  · exact Option.noConfusion h
  · exact Option.noConfusion h
  · split at h
    · next hcond =>
      injection h with h2
      obtain ⟨w, hw⟩ : ∃ w, l.takeWhile pyIsSpace = w := ⟨_, rfl⟩
      have hl : l = w ++ m :: c :: r := by
        rw [← hw, ← hd, List.takeWhile_append_dropWhile]
      have hwall : w.all pyIsSpace = true := by
        rw [← hw]
        exact List.all_eq_true.mpr (fun x hx => List.mem_takeWhile_imp hx)
      refine ⟨w, m, c, r, hl, hwall, hcond.1, hcond.2.1, hcond.2.2, ?_⟩
      rw [ulFix, h0]
      dsimp only
      rw [← h2, hw, hl, take_append_len w (m :: c :: r) 1,
        drop_append_len w (m :: c :: r) 1]
      simp
    · cases h

theorem ulFix_eq_of_none {l : Line} (h : reUl l = none) : ulFix l = l := by
  rw [ulFix, h]

theorem reOl_some {l : Line} {j : Nat} (h : reOl l = some j) :
    ∃ w dg c2 r, l = w ++ dg ++ '.' :: c2 :: r ∧ w.all pyIsSpace = true ∧
      dg ≠ [] ∧ dg.all (·.isDigit) = true ∧ c2 ≠ ' ' ∧ c2 ≠ '\n' ∧
      olFix l = w ++ dg ++ '.' :: ' ' :: c2 :: r := by
  have h0 := h
  simp only [reOl] at h
  split at h
  · next hcond =>
    obtain ⟨hd1, hdot, hcl⟩ := hcond
    injection h with h2
    obtain ⟨w, hw⟩ : ∃ w, l.takeWhile pyIsSpace = w := ⟨_, rfl⟩
    obtain ⟨a, ha⟩ : ∃ a, l.dropWhile pyIsSpace = a := ⟨_, rfl⟩
    rw [ha] at hdot hcl h2 hd1
    obtain ⟨d, hdd⟩ : ∃ d, runLen (fun c => c.isDigit) a = d := ⟨_, rfl⟩
    rw [hdd] at hdot hcl h2 hd1
    have hl0 : l = w ++ a := by rw [← hw, ← ha, List.takeWhile_append_dropWhile]
    have hwall : w.all pyIsSpace = true := by
      rw [← hw]
      exact List.all_eq_true.mpr (fun x hx => List.mem_takeWhile_imp hx)
    have hdlt : d < a.length := (List.get?_eq_some.mp hdot).1
    -- peel the dot
    have hdropd : a.drop d = '.' :: a.drop (d + 1) := by
      have h1 := List.drop_eq_getElem_cons hdlt
      have h2' : a[d] = '.' := by
        obtain ⟨hh, hg⟩ := List.get?_eq_some.mp hdot
        exact hg
      rw [h1, h2']
    -- peel the class character
    obtain ⟨c2, hc2, hc2s, hc2n⟩ : ∃ c2, a.get? (d + 1) = some c2 ∧
        c2 ≠ ' ' ∧ c2 ≠ '\n' := by
      rcases hg : a.get? (d + 1) with _ | c2
      · rw [hg] at hcl; cases hcl
      · rw [hg] at hcl
        rw [classNotSpaceNl] at hcl
        rw [Bool.and_eq_true] at hcl
        exact ⟨c2, rfl, by simpa using hcl.1, by simpa using hcl.2⟩
    have hd1lt : d + 1 < a.length := (List.get?_eq_some.mp hc2).1
    have hdropd1 : a.drop (d + 1) = c2 :: a.drop (d + 2) := by
      have h1 := List.drop_eq_getElem_cons hd1lt
      have h2' : a[d + 1] = c2 := (List.get?_eq_some.mp hc2).2
      rw [h1, h2']
    obtain ⟨dg, hdg⟩ : ∃ dg, a.take d = dg := ⟨_, rfl⟩
    obtain ⟨r, hrr⟩ : ∃ r, a.drop (d + 2) = r := ⟨_, rfl⟩
    rw [hrr] at hdropd1
    have hdglen : dg.length = d := by
      rw [← hdg, List.length_take]
      omega
    have hdgall : dg.all (·.isDigit) = true := by
      rw [← hdg]
      exact ((runLen_all_take (·.isDigit) a d).mpr (by omega)).2
    have hadecomp : a = dg ++ '.' :: c2 :: r := by
      conv_lhs => rw [← List.take_append_drop d a]
      rw [hdg, hdropd, hdropd1]
    have hldecomp : l = w ++ dg ++ '.' :: c2 :: r := by
      rw [hl0, hadecomp, List.append_assoc]
    refine ⟨w, dg, c2, r, hldecomp, hwall, ?_, hdgall, hc2s, hc2n, ?_⟩
    · intro hnil
      rw [hnil] at hdglen
      simp at hdglen
      omega
    · rw [olFix, h0]
      dsimp only
      rw [← h2, hw]
      have hj : w.length + d + 1 = w.length + (d + 1) := by omega
      rw [hj]
      have htk : l.take (w.length + (d + 1)) = w ++ (dg ++ ['.']) := by
        rw [hl0, take_append_len w a (d + 1), List.take_succ, hdg]
        have : a[d]? = some '.' := by
          rw [← List.get?_eq_getElem?]
          exact hdot
        rw [this]
        rfl
      have hdr : l.drop (w.length + (d + 1)) = c2 :: r := by
        rw [hl0, drop_append_len w a (d + 1), hdropd1]
      rw [htk, hdr]
      simp
  · cases h

theorem olFix_eq_of_none {l : Line} (h : reOl l = none) : olFix l = l := by
  rw [olFix, h]

/-! ### Structure of the unanchored substitutions -/

theorem isSegAt_decomp {p s : Line} (h : isSegAt p s = true) :
    s = p ++ s.drop p.length := by
  induction p generalizing s with
  | nil => simp
  | cons a p' ih =>
    cases s with
    | nil => rw [isSegAt_cons_nil] at h; cases h
    | cons c s' =>
      rw [isSegAt_cons_cons, Bool.and_eq_true] at h
      have ha : a = c := by simpa using h.1
      subst ha
      rw [List.length_cons, List.drop_succ_cons, List.cons_append]
      rw [← ih h.2]

theorem boldStop_decomp {s rem : Line} (h : boldStop s = some rem) :
    ∃ sep, s = sep ++ rem := by
  unfold boldStop at h
  split at h
  · split at h
    · next tail heq =>
      cases h
      refine ⟨s.take (runLen pyIsSpace s) ++ ['*', '*'], ?_⟩
      conv_lhs => rw [← List.take_append_drop (runLen pyIsSpace s) s]
      rw [heq]
      simp
    · cases h
  · cases h

theorem boldLazy_decomp {s mid rem : Line} (h : boldLazy s = some (mid, rem)) :
    ∃ sep, s = mid ++ sep ++ rem := by
  induction s generalizing mid with
  | nil => cases h
  | cons c s' ih =>
    rw [boldLazy] at h
    rcases hs : boldStop (c :: s') with _ | r
    · rw [hs] at h
      by_cases hc : c = '\n'
      · simp [hc] at h
      · simp only [hc, ite_false] at h
        rcases hl : boldLazy s' with _ | ⟨m, rm⟩
        · rw [hl] at h; cases h
        · rw [hl] at h
          simp only [Option.some.injEq, Prod.mk.injEq] at h
          obtain ⟨h3, h4⟩ := h
          subst h3; subst h4
          obtain ⟨sep, hsep⟩ := ih hl
          refine ⟨sep, ?_⟩
          rw [List.cons_append, List.cons_append]
          rw [← hsep]
    · rw [hs] at h
      simp only [Option.some.injEq, Prod.mk.injEq] at h
      obtain ⟨h3, h4⟩ := h
      subst h3; subst h4
      obtain ⟨sep, hsep⟩ := boldStop_decomp hs
      exact ⟨sep, by simpa using hsep⟩

theorem mathStop_decomp {s rem : Line} (h : mathStop s = some rem) :
    ∃ sep, s = sep ++ rem := by
  unfold mathStop at h
  split at h
  · split at h
    · next tail heq =>
      split at h
      · cases h
      · cases h
        refine ⟨s.take (runLen isSpTab s) ++ ['$'], ?_⟩
        conv_lhs => rw [← List.take_append_drop (runLen isSpTab s) s]
        rw [heq]
        simp
    · cases h
  · cases h

theorem boldJ_decomp {full mid rem : Line} : ∀ {j : Nat},
    boldJ full j = some (mid, rem) → ∃ u v, full = u ++ mid ++ v ++ rem := by
  intro j
  induction j with
  | zero => intro h; cases h
  | succ j ih =>
    intro h
    unfold boldJ at h
    rcases hl : boldLazy (full.drop (j + 1)) with _ | ⟨m, rm⟩
    · rw [hl] at h; exact ih h
    · rw [hl] at h
      simp only [Option.some.injEq, Prod.mk.injEq] at h
      obtain ⟨h3, h4⟩ := h
      subst h3; subst h4
      obtain ⟨sep, hsep⟩ := boldLazy_decomp hl
      refine ⟨full.take (j + 1), sep, ?_⟩
      conv_lhs => rw [← List.take_append_drop (j + 1) full]
      rw [hsep]
      simp [List.append_assoc]

theorem boldMatch_decomp {full mid rem : Line}
    (h : boldMatch full = some (mid, rem)) : ∃ u v, full = u ++ mid ++ v ++ rem :=
  boldJ_decomp h

theorem mathLazy_decomp {s mid rem : Line} (h : mathLazy s = some (mid, rem)) :
    ∃ sep, s = mid ++ sep ++ rem := by
  induction s generalizing mid with
  | nil => cases h
  | cons c s' ih =>
    rw [mathLazy] at h
    rcases hs : mathStop (c :: s') with _ | r
    · rw [hs] at h
      by_cases hc : c = '\n'
      · simp [hc] at h
      · simp only [hc, ite_false] at h
        rcases hl : mathLazy s' with _ | ⟨m, rm⟩
        · rw [hl] at h; cases h
        · rw [hl] at h
          simp only [Option.some.injEq, Prod.mk.injEq] at h
          obtain ⟨h3, h4⟩ := h
          subst h3; subst h4
          obtain ⟨sep, hsep⟩ := ih hl
          refine ⟨sep, ?_⟩
          rw [List.cons_append, List.cons_append]
          rw [← hsep]
    · rw [hs] at h
      simp only [Option.some.injEq, Prod.mk.injEq] at h
      obtain ⟨h3, h4⟩ := h
      subst h3; subst h4
      obtain ⟨sep, hsep⟩ := mathStop_decomp hs
      exact ⟨sep, by simpa using hsep⟩

theorem mathJ_decomp {full mid rem : Line} : ∀ {j : Nat},
    mathJ full j = some (mid, rem) → ∃ u v, full = u ++ mid ++ v ++ rem := by
  intro j
  induction j with
  | zero => intro h; cases h
  | succ j ih =>
    intro h
    unfold mathJ at h
    rcases hl : mathLazy (full.drop (j + 1)) with _ | ⟨m, rm⟩
    · rw [hl] at h; exact ih h
    · rw [hl] at h
      simp only [Option.some.injEq, Prod.mk.injEq] at h
      obtain ⟨h3, h4⟩ := h
      subst h3; subst h4
      obtain ⟨sep, hsep⟩ := mathLazy_decomp hl
      refine ⟨full.take (j + 1), sep, ?_⟩
      conv_lhs => rw [← List.take_append_drop (j + 1) full]
      rw [hsep]
      simp [List.append_assoc]

theorem mathMatch_decomp {full mid rem : Line}
    (h : mathMatch full = some (mid, rem)) : ∃ u v, full = u ++ mid ++ v ++ rem :=
  mathJ_decomp h

theorem supLazy_decomp {s mid rem : Line} (h : supLazy s = some (mid, rem)) :
    ∃ sep, s = mid ++ sep ++ rem := by
  induction s generalizing mid with
  | nil => cases h
  | cons c s' ih =>
    rw [supLazy] at h
    by_cases hseg : isSegAt supClose (c :: s') = true
    · rw [if_pos hseg] at h
      simp only [Option.some.injEq, Prod.mk.injEq] at h
      obtain ⟨h3, h4⟩ := h
      subst h3; subst h4
      exact ⟨supClose, by simpa using isSegAt_decomp hseg⟩
    · rw [if_neg hseg] at h
      by_cases hc : c = '\n'
      · simp [hc] at h
      · simp only [hc, ite_false] at h
        rcases hl : supLazy s' with _ | ⟨m, rm⟩
        · rw [hl] at h; cases h
        · rw [hl] at h
          simp only [Option.some.injEq, Prod.mk.injEq] at h
          obtain ⟨h3, h4⟩ := h
          subst h3; subst h4
          obtain ⟨sep, hsep⟩ := ih hl
          refine ⟨sep, ?_⟩
          rw [List.cons_append, List.cons_append]
          rw [← hsep]

theorem head_of_cons {y : Char} {rest : Line} (h : rest.head? = some y) :
    rest = y :: rest.tail := by
  cases rest with
  | nil => cases h
  | cons a t =>
    injection h with h2
    rw [h2]
    rfl

theorem boldSubF_head (f : Nat) (c : Char) (rest : Line) :
    (boldSubF f (c :: rest)).head? = some c ∨
      (boldSubF f (c :: rest)).head? = some '*' := by
  cases f with
  | zero => left; rfl
  | succ f =>
    simp only [boldSubF]
    by_cases hc : c = '*' ∧ rest.head? = some '*'
    · rw [if_pos hc]
      rcases hm : boldMatch rest.tail with _ | ⟨mid, rem⟩ <;> right <;> rfl
    · rw [if_neg hc]
      left; rfl

theorem mathSubF_head (f : Nat) (prev : Option Char) (c : Char) (rest : Line) :
    (mathSubF f prev (c :: rest)).head? = some c ∨
      (mathSubF f prev (c :: rest)).head? = some '$' := by
  cases f with
  | zero => left; rfl
  | succ f =>
    simp only [mathSubF]
    by_cases hc : c = '$'
    · rw [if_pos hc]
      by_cases hp : prev = some '$'
      · rw [if_pos hp]; right; rfl
      · rw [if_neg hp]
        rcases hm : mathMatch rest with _ | ⟨mid, rem⟩ <;> right <;> rfl
    · rw [if_neg hc]
      left; rfl

theorem supSubF_head (f : Nat) (c : Char) (rest : Line) :
    (supSubF f (c :: rest)).head? = some c ∨
      (supSubF f (c :: rest)).head? = some '^' := by
  cases f with
  | zero => left; rfl
  | succ f =>
    simp only [supSubF]
    by_cases hc : c = '<' ∧ isSegAt ['s', 'u', 'p', '>'] rest = true
    · rw [if_pos hc]
      rcases hm : supLazy (rest.drop 4) with _ | ⟨mid, rem⟩
      · left; rfl
      · right; rfl
    · rw [if_neg hc]
      left; rfl

theorem pairFree_cons_safe {a b c : Char} {y : Line}
    (hh : ∀ e, y.head? = some e → ¬(c = a ∧ e = b))
    (h : pairFree a b y = true) : pairFree a b (c :: y) = true := by
  rcases y with _ | ⟨d, rest⟩
  · rfl
  · rw [pairFree, Bool.and_eq_true]
    refine ⟨?_, h⟩
    have := hh d rfl
    simp only [Bool.not_eq_eq_eq_not, Bool.not_true, decide_eq_false_iff_not]
    exact this

theorem mem_boldSubF {x : Char} : ∀ {f : Nat} {l : Line},
    x ∈ boldSubF f l → x ∈ l ∨ x = '*' := by
  intro f
  induction f with
  | zero =>
    intro l h
    cases l with
    | nil => cases h
    | cons c rest => exact Or.inl h
  | succ f ih =>
    intro l h
    cases l with
    | nil => cases h
    | cons c rest =>
      simp only [boldSubF] at h
      by_cases hc : c = '*' ∧ rest.head? = some '*'
      · rw [if_pos hc] at h
        have hrest : rest = '*' :: rest.tail := head_of_cons hc.2
        rcases hm : boldMatch rest.tail with _ | ⟨mid, rem⟩ <;> rw [hm] at h
        · rcases List.mem_cons.mp h with h1 | h1
          · exact Or.inr h1
          · rcases ih h1 with h2 | h2
            · left
              rw [hrest] at h2 ⊢
              exact List.mem_cons_of_mem _ h2
            · exact Or.inr h2
        · obtain ⟨u, v, hdec⟩ := boldMatch_decomp hm
          rcases List.mem_cons.mp h with h1 | h1
          · exact Or.inr h1
          rcases List.mem_cons.mp h1 with h2 | h2
          · exact Or.inr h2
          rcases List.mem_append.mp h2 with h3 | h3
          · -- x ∈ mid ⊆ rest.tail ⊆ l
            left
            have hx : x ∈ rest.tail := by
              rw [hdec]
              simp only [List.mem_append]
              left; left; right
              exact h3
            have hx2 : x ∈ rest := by
              rw [hrest]
              exact List.mem_cons_of_mem _ hx
            exact List.mem_cons_of_mem _ hx2
          rcases List.mem_cons.mp h3 with h4 | h4
          · exact Or.inr h4
          rcases List.mem_cons.mp h4 with h5 | h5
          · exact Or.inr h5
          · rcases ih h5 with h6 | h6
            · left
              have hx : x ∈ rest.tail := by
                rw [hdec]
                simp only [List.mem_append]
                right
                exact h6
              have hx2 : x ∈ rest := by
                rw [hrest]
                exact List.mem_cons_of_mem _ hx
              exact List.mem_cons_of_mem _ hx2
            · exact Or.inr h6
      · rw [if_neg hc] at h
        rcases List.mem_cons.mp h with h1 | h1
        · exact Or.inl (h1 ▸ List.mem_cons_self c rest)
        · rcases ih h1 with h2 | h2
          · exact Or.inl (List.mem_cons_of_mem _ h2)
          · exact Or.inr h2

theorem mem_mathSubF {x : Char} : ∀ {f : Nat} {prev : Option Char} {l : Line},
    x ∈ mathSubF f prev l → x ∈ l ∨ x = '$' := by
  intro f
  induction f with
  | zero =>
    intro prev l h
    cases l with
    | nil => cases h
    | cons c rest => exact Or.inl h
  | succ f ih =>
    intro prev l h
    cases l with
    | nil => cases h
    | cons c rest =>
      simp only [mathSubF] at h
      by_cases hc : c = '$'
      · rw [if_pos hc] at h
        by_cases hp : prev = some '$'
        · rw [if_pos hp] at h
          rcases List.mem_cons.mp h with h1 | h1
          · exact Or.inr h1
          · rcases ih h1 with h2 | h2
            · exact Or.inl (List.mem_cons_of_mem _ h2)
            · exact Or.inr h2
        · rw [if_neg hp] at h
          rcases hm : mathMatch rest with _ | ⟨mid, rem⟩ <;> rw [hm] at h
          · rcases List.mem_cons.mp h with h1 | h1
            · exact Or.inr h1
            · rcases ih h1 with h2 | h2
              · exact Or.inl (List.mem_cons_of_mem _ h2)
              · exact Or.inr h2
          · obtain ⟨u, v, hdec⟩ := mathMatch_decomp hm
            rcases List.mem_cons.mp h with h1 | h1
            · exact Or.inr h1
            rcases List.mem_append.mp h1 with h3 | h3
            · left
              apply List.mem_cons_of_mem
              rw [hdec]
              simp only [List.mem_append]
              left; left; right
              exact h3
            rcases List.mem_cons.mp h3 with h4 | h4
            · exact Or.inr h4
            · rcases ih h4 with h6 | h6
              · left
                apply List.mem_cons_of_mem
                rw [hdec]
                simp only [List.mem_append]
                right
                exact h6
              · exact Or.inr h6
      · rw [if_neg hc] at h
        rcases List.mem_cons.mp h with h1 | h1
        · exact Or.inl (h1 ▸ List.mem_cons_self c rest)
        · rcases ih h1 with h2 | h2
          · exact Or.inl (List.mem_cons_of_mem _ h2)
          · exact Or.inr h2

theorem mem_supSubF {x : Char} : ∀ {f : Nat} {l : Line},
    x ∈ supSubF f l → x ∈ l ∨ x = '^' := by
  intro f
  induction f with
  | zero =>
    intro l h
    cases l with
    | nil => cases h
    | cons c rest => exact Or.inl h
  | succ f ih =>
    intro l h
    cases l with
    | nil => cases h
    | cons c rest =>
      simp only [supSubF] at h
      by_cases hc : c = '<' ∧ isSegAt ['s', 'u', 'p', '>'] rest = true
      · rw [if_pos hc] at h
        rcases hm : supLazy (rest.drop 4) with _ | ⟨mid, rem⟩ <;> rw [hm] at h
        · rcases List.mem_cons.mp h with h1 | h1
          · exact Or.inl (h1 ▸ List.mem_cons_self c rest)
          · rcases ih h1 with h2 | h2
            · exact Or.inl (List.mem_cons_of_mem _ h2)
            · exact Or.inr h2
        · obtain ⟨sep, hdec⟩ := supLazy_decomp hm
          have hdropmem : ∀ y, y ∈ rest.drop 4 → y ∈ rest :=
            fun y hy => List.mem_of_mem_drop hy
          rcases List.mem_cons.mp h with h1 | h1
          · exact Or.inr h1
          rcases List.mem_append.mp h1 with h3 | h3
          · left
            apply List.mem_cons_of_mem
            apply hdropmem
            rw [hdec]
            simp only [List.mem_append]
            left; left
            exact h3
          rcases List.mem_cons.mp h3 with h4 | h4
          · exact Or.inr h4
          · rcases ih h4 with h6 | h6
            · left
              apply List.mem_cons_of_mem
              apply hdropmem
              rw [hdec]
              simp only [List.mem_append]
              right
              exact h6
            · exact Or.inr h6
      · rw [if_neg hc] at h
        rcases List.mem_cons.mp h with h1 | h1
        · exact Or.inl (h1 ▸ List.mem_cons_self c rest)
        · rcases ih h1 with h2 | h2
          · exact Or.inl (List.mem_cons_of_mem _ h2)
          · exact Or.inr h2

theorem pairFree_of_decomp_mid {a b : Char} {full u mid v rem : Line}
    (hdec : full = u ++ mid ++ v ++ rem) (h : pairFree a b full = true) :
    pairFree a b mid = true ∧ pairFree a b rem = true := by
  rw [hdec] at h
  exact ⟨pairFree_append_right (pairFree_append_left (pairFree_append_left h)),
    pairFree_append_right h⟩

theorem boldSubF_nil (f : Nat) : boldSubF f [] = [] := by cases f <;> rfl

theorem mathSubF_nil (f : Nat) (prev : Option Char) : mathSubF f prev [] = [] := by
  cases f <;> rfl

theorem supSubF_nil (f : Nat) : supSubF f [] = [] := by cases f <;> rfl

theorem pairFree_singleton (a b c : Char) : pairFree a b [c] = true := rfl

/-- The recurring step of the pair-freedom proofs: prepending the copied
character `c` to the scanned remainder is safe, because the remainder starts
either with the original next character (whose pair with `c` was already
pair-free) or with the literal replacement character (which is not `b`). -/
theorem pairFree_cons_scan {a b c lit d : Char} {yt out : Line}
    (hblit : b ≠ lit)
    (hhead : out.head? = some d ∨ out.head? = some lit)
    (hout : pairFree a b out = true)
    (h : pairFree a b (c :: d :: yt) = true) :
    pairFree a b (c :: out) = true := by
  apply pairFree_cons_safe ?_ hout
  intro e he
  rw [pairFree, Bool.and_eq_true] at h
  have h1 := h.1
  simp only [Bool.not_eq_eq_eq_not, Bool.not_true, decide_eq_false_iff_not] at h1
  rcases hhead with hh | hh <;> rw [he] at hh <;> injection hh with hh2
  · rw [hh2]
    exact h1
  · rintro ⟨_, hab⟩
    exact hblit (by rw [← hab]; exact hh2)

theorem pairFree_boldSubF {a b : Char} (ha : a ≠ '*') (hb : b ≠ '*') :
    ∀ {f : Nat} {l : Line}, pairFree a b l = true →
    pairFree a b (boldSubF f l) = true := by
  intro f
  induction f with
  | zero =>
    intro l h
    cases l with
    | nil => exact h
    | cons c rest => exact h
  | succ f ih =>
    intro l h
    cases l with
    | nil => exact h
    | cons c rest =>
      simp only [boldSubF]
      by_cases hc : c = '*' ∧ rest.head? = some '*'
      · rw [if_pos hc]
        obtain ⟨hc1, hc2⟩ := hc
        subst hc1
        have hrest : rest = '*' :: rest.tail := head_of_cons hc2
        have htailfree : pairFree a b rest.tail = true := by
          have h1 : pairFree a b rest = true := pairFree_tail h
          rw [hrest] at h1
          exact pairFree_tail h1
        rcases hm : boldMatch rest.tail with _ | ⟨mid, rem⟩
        · apply pairFree_cons_of_ne (Ne.symm ha)
          exact ih (hrest ▸ pairFree_tail h)
        · obtain ⟨u, v, hdec⟩ := boldMatch_decomp hm
          obtain ⟨hmidfree, hremfree⟩ := pairFree_of_decomp_mid hdec htailfree
          apply pairFree_cons_of_ne (Ne.symm ha)
          apply pairFree_cons_of_ne (Ne.symm ha)
          apply pairFree_append_intro hmidfree
          · apply pairFree_cons_of_ne (Ne.symm ha)
            apply pairFree_cons_of_ne (Ne.symm ha)
            exact ih hremfree
          · intro cx _ cy hcy
            simp only [List.head?_cons, Option.some.injEq] at hcy
            rintro ⟨_, hab⟩
            exact hb (by rw [← hab, ← hcy])
      · rw [if_neg hc]
        cases rest with
        | nil =>
          rw [boldSubF_nil]
          exact pairFree_singleton a b c
        | cons d rt =>
          exact pairFree_cons_scan hb (boldSubF_head f d rt)
            (ih (pairFree_tail h)) h

theorem pairFree_mathSubF {a b : Char} (ha : a ≠ '$') (hb : b ≠ '$') :
    ∀ {f : Nat} {prev : Option Char} {l : Line}, pairFree a b l = true →
    pairFree a b (mathSubF f prev l) = true := by
  intro f
  induction f with
  | zero =>
    intro prev l h
    cases l with
    | nil => exact h
    | cons c rest => exact h
  | succ f ih =>
    intro prev l h
    cases l with
    | nil => exact h
    | cons c rest =>
      simp only [mathSubF]
      by_cases hc : c = '$'
      · rw [if_pos hc]
        subst hc
        by_cases hp : prev = some '$'
        · rw [if_pos hp]
          cases rest with
          | nil =>
            rw [mathSubF_nil]
            exact pairFree_singleton a b '$'
          | cons d rt =>
            exact pairFree_cons_scan hb (mathSubF_head f (some '$') d rt)
              (ih (pairFree_tail h)) h
        · rw [if_neg hp]
          rcases hm : mathMatch rest with _ | ⟨mid, rem⟩
          · cases rest with
            | nil =>
              rw [mathSubF_nil]
              exact pairFree_singleton a b '$'
            | cons d rt =>
              exact pairFree_cons_scan hb (mathSubF_head f (some '$') d rt)
                (ih (pairFree_tail h)) h
          · obtain ⟨u, v, hdec⟩ := mathMatch_decomp hm
            obtain ⟨hmidfree, hremfree⟩ :=
              pairFree_of_decomp_mid hdec (pairFree_tail h)
            apply pairFree_cons_of_ne (Ne.symm ha)
            apply pairFree_append_intro hmidfree
            · apply pairFree_cons_of_ne (Ne.symm ha)
              exact ih hremfree
            · intro cx _ cy hcy
              simp only [List.head?_cons, Option.some.injEq] at hcy
              rintro ⟨_, hab⟩
              exact hb (by rw [← hab, ← hcy])
      · rw [if_neg hc]
        cases rest with
        | nil =>
          rw [mathSubF_nil]
          exact pairFree_singleton a b c
        | cons d rt =>
          exact pairFree_cons_scan hb (mathSubF_head f (some c) d rt)
            (ih (pairFree_tail h)) h

theorem pairFree_supSubF {a b : Char} (ha : a ≠ '^') (hb : b ≠ '^') :
    ∀ {f : Nat} {l : Line}, pairFree a b l = true →
    pairFree a b (supSubF f l) = true := by
  intro f
  induction f with
  | zero =>
    intro l h
    cases l with
    | nil => exact h
    | cons c rest => exact h
  | succ f ih =>
    intro l h
    cases l with
    | nil => exact h
    | cons c rest =>
      simp only [supSubF]
      by_cases hc : c = '<' ∧ isSegAt ['s', 'u', 'p', '>'] rest = true
      · rw [if_pos hc]
        rcases hm : supLazy (rest.drop 4) with _ | ⟨mid, rem⟩
        · cases rest with
          | nil =>
            rw [supSubF_nil]
            exact pairFree_singleton a b c
          | cons d rt =>
            exact pairFree_cons_scan hb (supSubF_head f d rt)
              (ih (pairFree_tail h)) h
        · obtain ⟨sep, hdec⟩ := supLazy_decomp hm
          have hdropfree : pairFree a b (rest.drop 4) = true := by
            refine pairFree_append_right (x := rest.take 4) ?_
            rw [List.take_append_drop]
            exact pairFree_tail h
          have hdec' : rest.drop 4 = [] ++ mid ++ sep ++ rem := by simpa using hdec
          obtain ⟨hmidfree, hremfree⟩ := pairFree_of_decomp_mid hdec' hdropfree
          apply pairFree_cons_of_ne (Ne.symm ha)
          apply pairFree_append_intro hmidfree
          · apply pairFree_cons_of_ne (Ne.symm ha)
            exact ih hremfree
          · intro cx _ cy hcy
            simp only [List.head?_cons, Option.some.injEq] at hcy
            rintro ⟨_, hab⟩
            exact hb (by rw [← hab, ← hcy])
      · rw [if_neg hc]
        cases rest with
        | nil =>
          rw [supSubF_nil]
          exact pairFree_singleton a b c
        | cons d rt =>
          exact pairFree_cons_scan hb (supSubF_head f d rt)
            (ih (pairFree_tail h)) h

/-! ### First-difference decompositions: each substitution either leaves the
line unchanged or agrees with it up to the position of the first match,
where both texts carry a known non-special character. -/

theorem boldSubF_decomp : ∀ (f : Nat) (l : Line),
    boldSubF f l = l ∨ ∃ p t t', l = p ++ '*' :: t ∧
      boldSubF f l = p ++ '*' :: t' := by
  intro f
  induction f with
  | zero => intro l; left; cases l <;> rfl
  | succ f ih =>
    intro l
    cases l with
    | nil => left; rfl
    | cons c rest =>
      simp only [boldSubF]
      by_cases hc : c = '*' ∧ rest.head? = some '*'
      · rw [if_pos hc]
        obtain ⟨hc1, _⟩ := hc
        subst hc1
        rcases hm : boldMatch rest.tail with _ | ⟨mid, rem⟩
        · right
          exact ⟨[], rest, boldSubF f ('*' :: rest.tail), rfl, rfl⟩
        · right
          exact ⟨[], rest, '*' :: (mid ++ '*' :: '*' :: boldSubF f rem), rfl, rfl⟩
      · rw [if_neg hc]
        rcases ih rest with hid | ⟨p, t, t', hrest, hout⟩
        · left; rw [hid]
        · right
          exact ⟨c :: p, t, t', by rw [List.cons_append, hrest],
            by rw [List.cons_append, hout]⟩

theorem mathSubF_decomp : ∀ (f : Nat) (prev : Option Char) (l : Line),
    mathSubF f prev l = l ∨ ∃ p t t', l = p ++ '$' :: t ∧
      mathSubF f prev l = p ++ '$' :: t' := by
  intro f
  induction f with
  | zero => intro prev l; left; cases l <;> rfl
  | succ f ih =>
    intro prev l
    cases l with
    | nil => left; rfl
    | cons c rest =>
      simp only [mathSubF]
      by_cases hc : c = '$'
      · rw [if_pos hc]
        subst hc
        by_cases hp : prev = some '$'
        · rw [if_pos hp]
          right
          exact ⟨[], rest, mathSubF f (some '$') rest, rfl, rfl⟩
        · rw [if_neg hp]
          rcases hm : mathMatch rest with _ | ⟨mid, rem⟩
          · right
            exact ⟨[], rest, mathSubF f (some '$') rest, rfl, rfl⟩
          · right
            exact ⟨[], rest, mid ++ '$' :: mathSubF f (some '$') rem, rfl, rfl⟩
      · rw [if_neg hc]
        rcases ih (some c) rest with hid | ⟨p, t, t', hrest, hout⟩
        · left; rw [hid]
        · right
          exact ⟨c :: p, t, t', by rw [List.cons_append, hrest],
            by rw [List.cons_append, hout]⟩

theorem supSubF_decomp : ∀ (f : Nat) (l : Line),
    supSubF f l = l ∨ ∃ p d d' t t', (¬ pyIsSpace d = true) ∧ d ≠ tick ∧
      d ≠ '#' ∧ d ≠ ' ' ∧ (¬ pyIsSpace d' = true) ∧ d' ≠ tick ∧ d' ≠ '#' ∧
      d' ≠ ' ' ∧ l = p ++ d :: t ∧ supSubF f l = p ++ d' :: t' := by
  intro f
  induction f with
  | zero => intro l; left; cases l <;> rfl
  | succ f ih =>
    intro l
    cases l with
    | nil => left; rfl
    | cons c rest =>
      simp only [supSubF]
      by_cases hc : c = '<' ∧ isSegAt ['s', 'u', 'p', '>'] rest = true
      · rw [if_pos hc]
        obtain ⟨hc1, _⟩ := hc
        subst hc1
        rcases hm : supLazy (rest.drop 4) with _ | ⟨mid, rem⟩
        · rcases ih rest with hid | ⟨p, d, d', t, t', a1, a2, a3, a4, a5, a6, a7, a8,
            hrest, hout⟩
          · left; rw [hid]
          · right
            exact ⟨'<' :: p, d, d', t, t', a1, a2, a3, a4, a5, a6, a7, a8,
              by rw [List.cons_append, hrest], by rw [List.cons_append, hout]⟩
        · right
          refine ⟨[], '<', '^', rest, mid ++ '^' :: supSubF f rem,
            by decide, by decide, by decide, by decide,
            by decide, by decide, by decide, by decide, rfl, rfl⟩
      · rw [if_neg hc]
        rcases ih rest with hid | ⟨p, d, d', t, t', a1, a2, a3, a4, a5, a6, a7, a8,
          hrest, hout⟩
        · left; rw [hid]
        · right
          exact ⟨c :: p, d, d', t, t', a1, a2, a3, a4, a5, a6, a7, a8,
            by rw [List.cons_append, hrest], by rw [List.cons_append, hout]⟩

/-- A change of the text at its first difference position does not affect
`re_heading` matching, provided neither character is a space or a hash. -/
theorem reHeading_append_congr {d d' : Char}
    (hd1 : d ≠ ' ') (hd2 : d ≠ '#') (hd1' : d' ≠ ' ') (hd2' : d' ≠ '#')
    (p t t' : Line) : reHeading (p ++ d :: t) = reHeading (p ++ d' :: t') := by
  rw [reHeading_spec, reHeading_spec]
  by_cases hall : p.all (· = '#') = true
  · have hz : runLen (· = '#') (d :: t) = 0 := by
      rw [runLen]
      simp [hd2]
    have hz' : runLen (· = '#') (d' :: t') = 0 := by
      rw [runLen]
      simp [hd2']
    have hr1 : runLen (· = '#') (p ++ d :: t) = p.length := by
      rw [runLen_append, if_pos hall, hz]
      omega
    have hr2 : runLen (· = '#') (p ++ d' :: t') = p.length := by
      rw [runLen_append, if_pos hall, hz']
      omega
    have hg1 : (p ++ d :: t).get? p.length = some d := by
      rw [List.get?_append_right (le_refl _)]
      simp
    have hg2 : (p ++ d' :: t').get? p.length = some d' := by
      rw [List.get?_append_right (le_refl _)]
      simp
    rw [hr1, hr2, hg1, hg2]
    by_cases hp6 : 1 ≤ p.length ∧ p.length ≤ 6
    · rw [if_pos ⟨hp6.1, hp6.2, by simp [classNotSpaceHash, hd1, hd2]⟩,
        if_pos ⟨hp6.1, hp6.2, by simp [classNotSpaceHash, hd1', hd2']⟩]
    · rw [if_neg (by rintro ⟨a1, a2, _⟩; exact hp6 ⟨a1, a2⟩),
        if_neg (by rintro ⟨a1, a2, _⟩; exact hp6 ⟨a1, a2⟩)]
  · have hlt := runLen_lt_of_not_all hall
    have hr1 : runLen (· = '#') (p ++ d :: t) = runLen (· = '#') p := by
      rw [runLen_append, if_neg hall]
    have hr2 : runLen (· = '#') (p ++ d' :: t') = runLen (· = '#') p := by
      rw [runLen_append, if_neg hall]
    have hg1 : (p ++ d :: t).get? (runLen (· = '#') p) =
        p.get? (runLen (· = '#') p) := List.get?_append hlt
    have hg2 : (p ++ d' :: t').get? (runLen (· = '#') p) =
        p.get? (runLen (· = '#') p) := List.get?_append hlt
    rw [hr1, hr2, hg1, hg2]

theorem isFence_boldSub (l : Line) : isFence (boldSub l) = isFence l := by
  rw [boldSub]
  rcases boldSubF_decomp l.length l with hid | ⟨p, t, t', hrest, hout⟩
  · rw [hid]
  · rw [hout, hrest]
    exact isFence_append_congr (by decide) (by decide) (by decide) (by decide) p t' t

theorem reHeading_boldSub (l : Line) : reHeading (boldSub l) = reHeading l := by
  rw [boldSub]
  rcases boldSubF_decomp l.length l with hid | ⟨p, t, t', hrest, hout⟩
  · rw [hid]
  · rw [hout, hrest]
    exact reHeading_append_congr (by decide) (by decide) (by decide) (by decide) p t' t

theorem isFence_mathSub (l : Line) : isFence (mathSub l) = isFence l := by
  rw [mathSub]
  rcases mathSubF_decomp l.length none l with hid | ⟨p, t, t', hrest, hout⟩
  · rw [hid]
  · rw [hout, hrest]
    exact isFence_append_congr (by decide) (by decide) (by decide) (by decide) p t' t

theorem reHeading_mathSub (l : Line) : reHeading (mathSub l) = reHeading l := by
  rw [mathSub]
  rcases mathSubF_decomp l.length none l with hid | ⟨p, t, t', hrest, hout⟩
  · rw [hid]
  · rw [hout, hrest]
    exact reHeading_append_congr (by decide) (by decide) (by decide) (by decide) p t' t

theorem isFence_supSub (l : Line) : isFence (supSub l) = isFence l := by
  rw [supSub]
  rcases supSubF_decomp l.length l with hid |
    ⟨p, d, d', t, t', a1, a2, a3, a4, a5, a6, a7, a8, hrest, hout⟩
  · rw [hid]
  · rw [hout, hrest]
    exact isFence_append_congr a5 a6 a1 a2 p t' t

theorem reHeading_supSub (l : Line) : reHeading (supSub l) = reHeading l := by
  rw [supSub]
  rcases supSubF_decomp l.length l with hid |
    ⟨p, d, d', t, t', a1, a2, a3, a4, a5, a6, a7, a8, hrest, hout⟩
  · rw [hid]
  · rw [hout, hrest]
    exact reHeading_append_congr a8 a7 a4 a3 p t' t

/-! ### Aggregate facts about `repairLine` -/

theorem pyIsSpace_ne_hash {c : Char} (h : pyIsSpace c = true) : c ≠ '#' := by
  intro he
  subst he
  cases h

theorem isDigit_props {c : Char} (h : c.isDigit = true) :
    pyIsSpace c = false ∧ c ≠ tick ∧ c ≠ '#' := by
  refine ⟨?_, ?_, ?_⟩
  · by_contra hw
    simp only [Bool.not_eq_false] at hw
    rw [pyIsSpace] at hw
    simp only [Bool.or_eq_true, decide_eq_true_eq] at hw
    rcases hw with ((((rfl | rfl) | rfl) | rfl) | rfl) | rfl <;> cases h
  · intro he; subst he; cases h
  · intro he; subst he; cases h

theorem isFence_ws_prefix {w : Line} (hw : w.all pyIsSpace = true) (x : Line) :
    isFence (w ++ x) = isFence x := by
  rw [isFence, isFence, dropWhile_append_all hw]

theorem reHeading_head_ne {c : Char} (hc : c ≠ '#') (x : Line) :
    reHeading (c :: x) = none := by
  rw [reHeading_spec]
  have hz : runLen (· = '#') (c :: x) = 0 := by
    rw [runLen]
    simp [hc]
  rw [hz, if_neg]
  rintro ⟨h1, _, _⟩
  omega

theorem reHeading_ws_prefix {w : Line} (hw : w.all pyIsSpace = true) {m : Char}
    (hm : m ≠ '#') (x : Line) : reHeading (w ++ m :: x) = none := by
  cases w with
  | nil => simpa using reHeading_head_ne hm x
  | cons c w' =>
    rw [List.cons_append]
    rw [List.all_cons, Bool.and_eq_true] at hw
    exact reHeading_head_ne (pyIsSpace_ne_hash hw.1) _

/-- No line ever matches `re_heading` after the per-line repairs: the heading
fix leaves a space after the hash run, and none of the later repairs can
recreate a heading-shaped prefix. -/
theorem reHeading_repairLine (l : Line) : reHeading (repairLine l) = none := by
  have h1 : reHeading (headingFix l) = none := reHeading_headingFix l
  have h2 : reHeading (quoteFix (headingFix l)) = none := by
    rcases hq : reQuote (headingFix l) with _ | j
    · rw [quoteFix_eq_of_none hq]; exact h1
    · obtain ⟨hj, hfix⟩ := reQuote_some hq
      rw [hfix]
      obtain ⟨jj, rfl⟩ : ∃ jj, j = jj + 1 := ⟨j - 1, by omega⟩
      rw [List.replicate_succ, List.cons_append]
      exact reHeading_head_ne (by decide) _
  have h3 : reHeading (ulFix (quoteFix (headingFix l))) = none := by
    rcases hu : reUl (quoteFix (headingFix l)) with _ | j
    · rw [ulFix_eq_of_none hu]; exact h2
    · obtain ⟨w, m, c, r, hl, hw, hm, _, _, hfix⟩ := reUl_some hu
      rw [hfix]
      exact reHeading_ws_prefix hw (isUlMark_props hm).2.2 _
  have h4 : reHeading (olFix (ulFix (quoteFix (headingFix l)))) = none := by
    rcases ho : reOl (ulFix (quoteFix (headingFix l))) with _ | j
    · rw [olFix_eq_of_none ho]; exact h3
    · obtain ⟨w, dg, c2, r, hl, hw, hne, hdig, _, _, hfix⟩ := reOl_some ho
      rw [hfix]
      rcases dg with _ | ⟨dh, dt⟩
      · exact absurd rfl hne
      · rw [List.append_assoc, List.cons_append]
        rw [List.all_cons, Bool.and_eq_true] at hdig
        exact reHeading_ws_prefix hw (isDigit_props hdig.1).2.2 _
  rw [repairLine]
  by_cases hb : hasSeg ['*', '*'] (olFix (ulFix (quoteFix (headingFix l)))) = true
  · rw [if_pos hb]
    by_cases hd : (boldSub (olFix (ulFix (quoteFix (headingFix l))))).contains '$' = true
    · rw [if_pos hd]
      by_cases hs : hasSeg supOpen
          (mathSub (boldSub (olFix (ulFix (quoteFix (headingFix l)))))) = true
      · rw [if_pos hs, reHeading_supSub, reHeading_mathSub, reHeading_boldSub]
        exact h4
      · rw [if_neg hs, reHeading_mathSub, reHeading_boldSub]
        exact h4
    · rw [if_neg hd]
      by_cases hs : hasSeg supOpen (boldSub (olFix (ulFix (quoteFix (headingFix l))))) = true
      · rw [if_pos hs, reHeading_supSub, reHeading_boldSub]
        exact h4
      · rw [if_neg hs, reHeading_boldSub]
        exact h4
  · rw [if_neg hb]
    by_cases hd : (olFix (ulFix (quoteFix (headingFix l)))).contains '$' = true
    · rw [if_pos hd]
      by_cases hs : hasSeg supOpen
          (mathSub (olFix (ulFix (quoteFix (headingFix l))))) = true
      · rw [if_pos hs, reHeading_supSub, reHeading_mathSub]
        exact h4
      · rw [if_neg hs, reHeading_mathSub]
        exact h4
    · rw [if_neg hd]
      by_cases hs : hasSeg supOpen (olFix (ulFix (quoteFix (headingFix l)))) = true
      · rw [if_pos hs, reHeading_supSub]
        exact h4
      · rw [if_neg hs]
        exact h4

/-- A prose line (not a fence marker) is still not a fence marker after the
per-line repairs. -/
theorem isFence_repairLine {l : Line} (h : isFence l = false) :
    isFence (repairLine l) = false := by
  have h1 : isFence (headingFix l) = false := by
    rcases hm : reHeading l with _ | j
    · rw [headingFix_eq_of_none hm]; exact h
    · obtain ⟨_, hj, _, _⟩ := reHeading_some hm
      rw [headingFix_eq_of_some hm]
      obtain ⟨jj, rfl⟩ : ∃ jj, j = jj + 1 := ⟨j - 1, by omega⟩
      rw [List.replicate_succ, List.cons_append]
      exact isFence_head_not_space (by decide) (by decide) _
  have h2 : isFence (quoteFix (headingFix l)) = false := by
    rcases hq : reQuote (headingFix l) with _ | j
    · rw [quoteFix_eq_of_none hq]; exact h1
    · obtain ⟨hj, hfix⟩ := reQuote_some hq
      rw [hfix]
      obtain ⟨jj, rfl⟩ : ∃ jj, j = jj + 1 := ⟨j - 1, by omega⟩
      rw [List.replicate_succ, List.cons_append]
      exact isFence_head_not_space (by decide) (by decide) _
  have h3 : isFence (ulFix (quoteFix (headingFix l))) = false := by
    rcases hu : reUl (quoteFix (headingFix l)) with _ | j
    · rw [ulFix_eq_of_none hu]; exact h2
    · obtain ⟨w, m, c, r, hl, hw, hm, _, _, hfix⟩ := reUl_some hu
      rw [hfix, isFence_ws_prefix hw]
      obtain ⟨hm1, hm2, _⟩ := isUlMark_props hm
      exact isFence_head_not_space (by simp [hm1]) hm2 _
  have h4 : isFence (olFix (ulFix (quoteFix (headingFix l)))) = false := by
    rcases ho : reOl (ulFix (quoteFix (headingFix l))) with _ | j
    · rw [olFix_eq_of_none ho]; exact h3
    · obtain ⟨w, dg, c2, r, hl, hw, hne, hdig, _, _, hfix⟩ := reOl_some ho
      rw [hfix]
      rcases dg with _ | ⟨dh, dt⟩
      · exact absurd rfl hne
      · rw [List.append_assoc, List.cons_append, isFence_ws_prefix hw]
        rw [List.all_cons, Bool.and_eq_true] at hdig
        obtain ⟨hd1, hd2, _⟩ := isDigit_props hdig.1
        exact isFence_head_not_space (by simp [hd1]) hd2 _
  rw [repairLine]
  by_cases hb : hasSeg ['*', '*'] (olFix (ulFix (quoteFix (headingFix l)))) = true
  · rw [if_pos hb]
    by_cases hd : (boldSub (olFix (ulFix (quoteFix (headingFix l))))).contains '$' = true
    · rw [if_pos hd]
      by_cases hs : hasSeg supOpen
          (mathSub (boldSub (olFix (ulFix (quoteFix (headingFix l)))))) = true
      · rw [if_pos hs, isFence_supSub, isFence_mathSub, isFence_boldSub]
        exact h4
      · rw [if_neg hs, isFence_mathSub, isFence_boldSub]
        exact h4
    · rw [if_neg hd]
      by_cases hs : hasSeg supOpen (boldSub (olFix (ulFix (quoteFix (headingFix l))))) = true
      · rw [if_pos hs, isFence_supSub, isFence_boldSub]
        exact h4
      · rw [if_neg hs, isFence_boldSub]
        exact h4
  · rw [if_neg hb]
    by_cases hd : (olFix (ulFix (quoteFix (headingFix l)))).contains '$' = true
    · rw [if_pos hd]
      by_cases hs : hasSeg supOpen
          (mathSub (olFix (ulFix (quoteFix (headingFix l))))) = true
      · rw [if_pos hs, isFence_supSub, isFence_mathSub]
        exact h4
      · rw [if_neg hs, isFence_mathSub]
        exact h4
    · rw [if_neg hd]
      by_cases hs : hasSeg supOpen (olFix (ulFix (quoteFix (headingFix l)))) = true
      · rw [if_pos hs, isFence_supSub]
        exact h4
      · rw [if_neg hs]
        exact h4

/-! ### Character membership and pair-freedom through the per-line repairs -/

theorem mem_insert_space {c : Char} {l : Line} {j : Nat}
    (h : c ∈ l.take j ++ ' ' :: l.drop j) : c ∈ l ∨ c = ' ' := by
  rcases List.mem_append.mp h with h1 | h1
  · exact Or.inl (List.take_subset j l h1)
  · rcases List.mem_cons.mp h1 with h2 | h2
    · exact Or.inr h2
    · exact Or.inl (List.drop_subset j l h2)

theorem mem_headingFix {c : Char} {l : Line} (h : c ∈ headingFix l) :
    c ∈ l ∨ c = ' ' := by
  rcases hm : reHeading l with _ | j
  · rw [headingFix_eq_of_none hm] at h
    exact Or.inl h
  · rw [headingFix, hm] at h
    dsimp only at h
    exact mem_insert_space h

theorem mem_quoteFix {c : Char} {l : Line} (h : c ∈ quoteFix l) :
    c ∈ l ∨ c = ' ' := by
  rcases hm : reQuote l with _ | j
  · rw [quoteFix_eq_of_none hm] at h
    exact Or.inl h
  · rw [quoteFix, hm] at h
    dsimp only at h
    exact mem_insert_space h

theorem mem_ulFix {c : Char} {l : Line} (h : c ∈ ulFix l) :
    c ∈ l ∨ c = ' ' := by
  rcases hm : reUl l with _ | j
  · rw [ulFix_eq_of_none hm] at h
    exact Or.inl h
  · rw [ulFix, hm] at h
    dsimp only at h
    exact mem_insert_space h

theorem mem_olFix {c : Char} {l : Line} (h : c ∈ olFix l) :
    c ∈ l ∨ c = ' ' := by
  rcases hm : reOl l with _ | j
  · rw [olFix_eq_of_none hm] at h
    exact Or.inl h
  · rw [olFix, hm] at h
    dsimp only at h
    exact mem_insert_space h

theorem mem_ite_boldSub {c : Char} {b : Bool} {x : Line}
    (h : c ∈ (if b = true then boldSub x else x)) : c ∈ x ∨ c = '*' := by
  cases b
  · simp only [Bool.false_eq_true, if_false] at h
    exact Or.inl h
  · rw [if_pos rfl, boldSub] at h
    exact mem_boldSubF h

theorem mem_ite_mathSub {c : Char} {b : Bool} {x : Line}
    (h : c ∈ (if b = true then mathSub x else x)) : c ∈ x ∨ c = '$' := by
  cases b
  · simp only [Bool.false_eq_true, if_false] at h
    exact Or.inl h
  · rw [if_pos rfl, mathSub] at h
    exact mem_mathSubF h

theorem mem_ite_supSub {c : Char} {b : Bool} {x : Line}
    (h : c ∈ (if b = true then supSub x else x)) : c ∈ x ∨ c = '^' := by
  cases b
  · simp only [Bool.false_eq_true, if_false] at h
    exact Or.inl h
  · rw [if_pos rfl, supSub] at h
    exact mem_supSubF h

/-- Every character of a repaired line is a character of the original line
or one of the four literal characters the repairs can insert. -/
theorem mem_repairLine {c : Char} {l : Line} (h : c ∈ repairLine l) :
    c ∈ l ∨ c = ' ' ∨ c = '*' ∨ c = '$' ∨ c = '^' := by
  have step : ∀ {y : Line}, c ∈ olFix (ulFix (quoteFix (headingFix y))) →
      c ∈ y ∨ c = ' ' := by
    intro y hy
    rcases mem_olFix hy with h3 | h3
    · rcases mem_ulFix h3 with h2 | h2
      · rcases mem_quoteFix h2 with h1 | h1
        · rcases mem_headingFix h1 with h0 | h0
          · exact Or.inl h0
          · exact Or.inr h0
        · exact Or.inr h1
      · exact Or.inr h2
    · exact Or.inr h3
  rw [repairLine] at h
  rcases mem_ite_supSub h with h6 | h6
  · rcases mem_ite_mathSub h6 with h5 | h5
    · rcases mem_ite_boldSub h5 with h4 | h4
      · rcases step h4 with h0 | h0
        · exact Or.inl h0
        · exact Or.inr (Or.inl h0)
      · exact Or.inr (Or.inr (Or.inl h4))
    · exact Or.inr (Or.inr (Or.inr (Or.inl h5)))
  · exact Or.inr (Or.inr (Or.inr (Or.inr h6)))

theorem pairFree_take {a b : Char} {l : Line} (h : pairFree a b l = true)
    (j : Nat) : pairFree a b (l.take j) = true := by
  apply pairFree_append_left (y := l.drop j)
  rw [List.take_append_drop]
  exact h

theorem pairFree_drop {a b : Char} {l : Line} (h : pairFree a b l = true)
    (j : Nat) : pairFree a b (l.drop j) = true := by
  apply pairFree_append_right (x := l.take j)
  rw [List.take_append_drop]
  exact h

theorem pairFree_insert_space {a b : Char} (ha : a ≠ ' ') (hb : b ≠ ' ')
    {l : Line} (h : pairFree a b l = true) (j : Nat) :
    pairFree a b (l.take j ++ ' ' :: l.drop j) = true := by
  apply pairFree_append_intro (pairFree_take h j)
    (pairFree_cons_of_ne (Ne.symm ha) (pairFree_drop h j))
  intro cx _ cy hcy hcon
  obtain ⟨_, h2⟩ := hcon
  rw [List.head?_cons] at hcy
  injection hcy with h3
  exact hb (h3.trans h2).symm

theorem pairFree_headingFix {a b : Char} (ha : a ≠ ' ') (hb : b ≠ ' ')
    {l : Line} (h : pairFree a b l = true) :
    pairFree a b (headingFix l) = true := by
  rcases hm : reHeading l with _ | j
  · rw [headingFix_eq_of_none hm]; exact h
  · rw [headingFix, hm]
    dsimp only
    exact pairFree_insert_space ha hb h j

theorem pairFree_quoteFix {a b : Char} (ha : a ≠ ' ') (hb : b ≠ ' ')
    {l : Line} (h : pairFree a b l = true) :
    pairFree a b (quoteFix l) = true := by
  rcases hm : reQuote l with _ | j
  · rw [quoteFix_eq_of_none hm]; exact h
  · rw [quoteFix, hm]
    dsimp only
    exact pairFree_insert_space ha hb h j

theorem pairFree_ulFix {a b : Char} (ha : a ≠ ' ') (hb : b ≠ ' ')
    {l : Line} (h : pairFree a b l = true) :
    pairFree a b (ulFix l) = true := by
  rcases hm : reUl l with _ | j
  · rw [ulFix_eq_of_none hm]; exact h
  · rw [ulFix, hm]
    dsimp only
    exact pairFree_insert_space ha hb h j

theorem pairFree_olFix {a b : Char} (ha : a ≠ ' ') (hb : b ≠ ' ')
    {l : Line} (h : pairFree a b l = true) :
    pairFree a b (olFix l) = true := by
  rcases hm : reOl l with _ | j
  · rw [olFix_eq_of_none hm]; exact h
  · rw [olFix, hm]
    dsimp only
    exact pairFree_insert_space ha hb h j

theorem pairFree_ite_boldSub {a b : Char} (ha : a ≠ '*') (hb : b ≠ '*')
    {bb : Bool} {x : Line} (h : pairFree a b x = true) :
    pairFree a b (if bb = true then boldSub x else x) = true := by
  cases bb
  · simpa using h
  · rw [if_pos rfl, boldSub]
    exact pairFree_boldSubF ha hb h

theorem pairFree_ite_mathSub {a b : Char} (ha : a ≠ '$') (hb : b ≠ '$')
    {bb : Bool} {x : Line} (h : pairFree a b x = true) :
    pairFree a b (if bb = true then mathSub x else x) = true := by
  cases bb
  · simpa using h
  · rw [if_pos rfl, mathSub]
    exact pairFree_mathSubF ha hb h

theorem pairFree_ite_supSub {a b : Char} (ha : a ≠ '^') (hb : b ≠ '^')
    {bb : Bool} {x : Line} (h : pairFree a b x = true) :
    pairFree a b (if bb = true then supSub x else x) = true := by
  cases bb
  · simpa using h
  · rw [if_pos rfl, supSub]
    exact pairFree_supSubF ha hb h

/-- The per-line repairs cannot create an adjacent pair `ab` when neither
`a` nor `b` is one of the characters the repairs insert. -/
theorem pairFree_repairLine {a b : Char} (ha1 : a ≠ ' ') (hb1 : b ≠ ' ')
    (ha2 : a ≠ '*') (hb2 : b ≠ '*') (ha3 : a ≠ '$') (hb3 : b ≠ '$')
    (ha4 : a ≠ '^') (hb4 : b ≠ '^') {l : Line} (h : pairFree a b l = true) :
    pairFree a b (repairLine l) = true := by
  rw [repairLine]
  apply pairFree_ite_supSub ha4 hb4
  apply pairFree_ite_mathSub ha3 hb3
  apply pairFree_ite_boldSub ha2 hb2
  exact pairFree_olFix ha1 hb1 (pairFree_ulFix ha1 hb1
    (pairFree_quoteFix ha1 hb1 (pairFree_headingFix ha1 hb1 h)))

/-! ### Facts about the line scan -/

theorem fenceCount_nil : fenceCount [] = 0 := rfl

theorem fenceCount_cons (x : Line) (ls : List Line) :
    fenceCount (x :: ls) = fenceCount ls + (if isFence x then 1 else 0) := by
  simp [fenceCount, List.countP_cons]

theorem fenceCount_append (x y : List Line) :
    fenceCount (x ++ y) = fenceCount x + fenceCount y := by
  simp [fenceCount, List.countP_append]

theorem blanksBefore_cases (p c : Line) :
    blanksBefore p c = [] ∨ blanksBefore p c = [[]] := by
  rw [blanksBefore]
  split_ifs <;> simp

theorem fenceCount_blanksBefore (p c : Line) :
    fenceCount (blanksBefore p c) = 0 := by
  rcases blanksBefore_cases p c with hb | hb <;> rw [hb] <;> decide

theorem parity_flip (c : Bool) (n : Nat) :
    ((!c) ^^ decide (n % 2 = 1)) = (c ^^ decide ((n + 1) % 2 = 1)) := by
  rcases Nat.mod_two_eq_zero_or_one n with h | h
  · have h1 : (n + 1) % 2 = 1 := by omega
    simp [h, h1]
  · have h1 : (n + 1) % 2 = 0 := by omega
    simp [h, h1]

/-- The scan emits exactly as many fence-marker lines as it reads, and its
terminal fence state is the initial state xor the parity of that count. -/
theorem scan_fence_final : ∀ (ls : List Line) (prev : Line) (i : Nat)
    (ic hf : Bool),
    fenceCount (scanAux prev i ic hf ls).out = fenceCount ls ∧
    (scanAux prev i ic hf ls).final = (ic ^^ decide (fenceCount ls % 2 = 1)) := by
  intro ls
  induction ls with
  | nil =>
    intro prev i ic hf
    refine ⟨rfl, ?_⟩
    simp [scanAux, fenceCount_nil]
  | cons l ls ih =>
    intro prev i ic hf
    simp only [scanAux]
    by_cases hF : isFence l = true
    · rw [if_pos hF]
      dsimp only
      obtain ⟨ih1, ih2⟩ := ih l (i + 1) (!ic) hf
      constructor
      · rw [fenceCount_cons, fenceCount_cons, ih1]
      · rw [ih2, fenceCount_cons, hF, if_pos rfl, parity_flip]
    · have hFf : isFence l = false := Bool.eq_false_iff.mpr hF
      rw [if_neg hF]
      cases ic
      · simp only [Bool.false_eq_true, if_false]
        obtain ⟨ih1, ih2⟩ :=
          ih l (i + 1) false (hf || ((reHeading l).isSome && decide (i < 5)))
        constructor
        · rw [fenceCount_append, fenceCount_blanksBefore, fenceCount_cons,
            fenceCount_append, ih1, fenceCount_cons, hFf,
            isFence_repairLine hFf]
          have hz : fenceCount (if reHr (repairLine l) then [[]] else []) = 0 := by
            split <;> decide
          rw [hz]
          simp
        · rw [ih2, fenceCount_cons, hFf]
          simp
      · rw [if_pos rfl]
        dsimp only
        obtain ⟨ih1, ih2⟩ := ih l (i + 1) true hf
        constructor
        · rw [fenceCount_cons, fenceCount_cons, ih1]
        · rw [ih2, fenceCount_cons, hFf]
          simp

theorem scan_out_ne (prev : Line) (i : Nat) (ic hf : Bool) {ls : List Line}
    (h : ls ≠ []) : (scanAux prev i ic hf ls).out ≠ [] := by
  rcases ls with _ | ⟨l, ls⟩
  · exact absurd rfl h
  · simp only [scanAux]
    by_cases hF : isFence l = true
    · rw [if_pos hF]
      exact List.cons_ne_nil _ _
    · rw [if_neg hF]
      cases ic
      · simp only [Bool.false_eq_true, if_false]
        rcases blanksBefore_cases prev (repairLine l) with hb | hb <;>
          rw [hb] <;> simp
      · rw [if_pos rfl]
        exact List.cons_ne_nil _ _

/-- Every line the scan emits is a blank separator, an input line passed
through verbatim, or the repaired form of an input line. -/
theorem scan_mem : ∀ (ls : List Line) (prev : Line) (i : Nat) (ic hf : Bool),
    ∀ x ∈ (scanAux prev i ic hf ls).out,
      x = [] ∨ ∃ l ∈ ls, x = l ∨ x = repairLine l := by
  intro ls
  induction ls with
  | nil =>
    intro prev i ic hf x hx
    cases hx
  | cons l ls ih =>
    intro prev i ic hf x hx
    simp only [scanAux] at hx
    by_cases hF : isFence l = true
    · rw [if_pos hF] at hx
      dsimp only at hx
      rcases List.mem_cons.mp hx with h1 | h1
      · exact Or.inr ⟨l, List.mem_cons_self l ls, Or.inl h1⟩
      · rcases ih l (i + 1) (!ic) hf x h1 with h2 | ⟨l2, hl2, h3⟩
        · exact Or.inl h2
        · exact Or.inr ⟨l2, List.mem_cons_of_mem l hl2, h3⟩
    · rw [if_neg hF] at hx
      cases ic
      · simp only [Bool.false_eq_true, if_false] at hx
        rcases List.mem_append.mp hx with h1 | h1
        · rcases blanksBefore_cases prev (repairLine l) with hb | hb <;>
            rw [hb] at h1
          · cases h1
          · rcases List.mem_cons.mp h1 with h2 | h2
            · exact Or.inl h2
            · cases h2
        · rcases List.mem_cons.mp h1 with h2 | h2
          · exact Or.inr ⟨l, List.mem_cons_self l ls, Or.inr h2⟩
          · rcases List.mem_append.mp h2 with h3 | h3
            · by_cases hhr : reHr (repairLine l) = true
              · rw [if_pos hhr] at h3
                rcases List.mem_cons.mp h3 with h4 | h4
                · exact Or.inl h4
                · cases h4
              · rw [if_neg hhr] at h3
                cases h3
            · rcases ih l (i + 1) false
                  (hf || ((reHeading l).isSome && decide (i < 5))) x h3 with
                h4 | ⟨l2, hl2, h5⟩
              · exact Or.inl h4
              · exact Or.inr ⟨l2, List.mem_cons_of_mem l hl2, h5⟩
      · rw [if_pos rfl] at hx
        dsimp only at hx
        rcases List.mem_cons.mp hx with h1 | h1
        · exact Or.inr ⟨l, List.mem_cons_self l ls, Or.inl h1⟩
        · rcases ih l (i + 1) true hf x h1 with h2 | ⟨l2, hl2, h3⟩
          · exact Or.inl h2
          · exact Or.inr ⟨l2, List.mem_cons_of_mem l hl2, h3⟩

theorem scan_lines_no_nl {ls : List Line} (h : ∀ l ∈ ls, '\n' ∉ l)
    (prev : Line) (i : Nat) (ic hf : Bool) :
    ∀ x ∈ (scanAux prev i ic hf ls).out, '\n' ∉ x := by
  intro x hx hmem
  rcases scan_mem ls prev i ic hf x hx with h1 | ⟨l, hl, h2 | h2⟩
  · subst h1; cases hmem
  · rw [h2] at hmem; exact h l hl hmem
  · subst h2
    rcases mem_repairLine hmem with h3 | h3 | h3 | h3 | h3
    · exact h l hl h3
    · exact absurd h3 (by decide)
    · exact absurd h3 (by decide)
    · exact absurd h3 (by decide)
    · exact absurd h3 (by decide)

theorem goodLines_cons_of_fence {x : Line} {ls : List Line} {ic : Bool}
    (hf : isFence x = true) (h : goodLines (!ic) ls = true) :
    goodLines ic (x :: ls) = true := by
  rw [goodLines, if_pos hf]
  exact h

theorem goodLines_cons_code {x : Line} {ls : List Line}
    (hf : isFence x = false) (h : goodLines true ls = true) :
    goodLines true (x :: ls) = true := by
  rw [goodLines, if_neg (by simp [hf]), if_pos rfl]
  exact h

theorem goodLines_cons_prose {x : Line} {ls : List Line}
    (hf : isFence x = false) (hh : reHeading x = none)
    (h : goodLines false ls = true) : goodLines false (x :: ls) = true := by
  rw [goodLines, if_neg (by simp [hf]), if_neg (by simp), hh]
  simpa using h

theorem goodLines_false_nil_cons {ls : List Line}
    (h : goodLines false ls = true) : goodLines false ([] :: ls) = true :=
  goodLines_cons_prose isFence_nil (by decide) h

/-- Every line sequence the scan emits is `goodLines` for the scan's own
initial state: prose-emitted lines cannot match `re_heading` again. -/
theorem scan_good : ∀ (ls : List Line) (prev : Line) (i : Nat) (ic hf : Bool),
    goodLines ic (scanAux prev i ic hf ls).out = true := by
  intro ls
  induction ls with
  | nil => intro prev i ic hf; rfl
  | cons l ls ih =>
    intro prev i ic hf
    simp only [scanAux]
    by_cases hF : isFence l = true
    · rw [if_pos hF]
      exact goodLines_cons_of_fence hF (ih l (i + 1) (!ic) hf)
    · have hFf : isFence l = false := Bool.eq_false_iff.mpr hF
      rw [if_neg hF]
      cases ic
      · simp only [Bool.false_eq_true, if_false]
        have hrec := ih l (i + 1) false
          (hf || ((reHeading l).isSome && decide (i < 5)))
        have htail : goodLines false
            ((if reHr (repairLine l) then [[]] else []) ++
              (scanAux l (i + 1) false
                (hf || ((reHeading l).isSome && decide (i < 5))) ls).out) = true := by
          by_cases hhr : reHr (repairLine l) = true
          · rw [if_pos hhr, List.cons_append, List.nil_append]
            exact goodLines_false_nil_cons hrec
          · rw [if_neg hhr, List.nil_append]
            exact hrec
        have hmid : goodLines false
            (repairLine l :: ((if reHr (repairLine l) then [[]] else []) ++
              (scanAux l (i + 1) false
                (hf || ((reHeading l).isSome && decide (i < 5))) ls).out)) = true :=
          goodLines_cons_prose (isFence_repairLine hFf)
            (reHeading_repairLine l) htail
        rcases blanksBefore_cases prev (repairLine l) with hb | hb <;> rw [hb]
        · rw [List.nil_append]
          exact hmid
        · rw [List.cons_append, List.nil_append]
          exact goodLines_false_nil_cons hmid
      · rw [if_pos rfl]
        exact goodLines_cons_code hFf (ih l (i + 1) true hf)

/-- On a `goodLines` input the scan never raises the heading-log flag. -/
theorem scan_hflag_of_good : ∀ (ls : List Line) (prev : Line) (i : Nat)
    (ic hf : Bool), goodLines ic ls = true →
    (scanAux prev i ic hf ls).hflag = hf := by
  intro ls
  induction ls with
  | nil => intro prev i ic hf _; rfl
  | cons l ls ih =>
    intro prev i ic hf hg
    rw [goodLines] at hg
    simp only [scanAux]
    by_cases hF : isFence l = true
    · rw [if_pos hF] at hg ⊢
      exact ih l (i + 1) (!ic) hf hg
    · rw [if_neg (by simp [Bool.eq_false_iff.mpr hF])] at hg
      rw [if_neg hF]
      cases ic
      · rw [if_neg (by simp)] at hg
        simp only [Bool.false_eq_true, if_false]
        rw [Bool.and_eq_true, decide_eq_true_eq] at hg
        obtain ⟨hh, hg2⟩ := hg
        rw [ih l (i + 1) false _ hg2, hh]
        simp
      · rw [if_pos rfl] at hg ⊢
        exact ih l (i + 1) true hf hg

theorem goodLines_append : ∀ (xs : List Line) (ic : Bool) (ys : List Line),
    goodLines ic xs = true →
    goodLines (ic ^^ decide (fenceCount xs % 2 = 1)) ys = true →
    goodLines ic (xs ++ ys) = true := by
  intro xs
  induction xs with
  | nil =>
    intro ic ys _ hy
    simpa [fenceCount_nil] using hy
  | cons x xs ih =>
    intro ic ys hx hy
    rw [goodLines] at hx
    rw [List.cons_append, goodLines]
    by_cases hF : isFence x = true
    · rw [if_pos hF] at hx ⊢
      rw [fenceCount_cons, hF, if_pos rfl] at hy
      apply ih (!ic) ys hx
      rw [parity_flip]
      exact hy
    · have hFf : isFence x = false := Bool.eq_false_iff.mpr hF
      rw [if_neg hF] at hx ⊢
      have hy' : goodLines (ic ^^ decide (fenceCount xs % 2 = 1)) ys = true := by
        rw [fenceCount_cons, hFf] at hy
        simpa using hy
      cases ic
      · rw [if_neg (by simp)] at hx ⊢
        rw [Bool.and_eq_true] at hx
        rw [hx.1]
        simpa using ih false ys (by simpa using hx.2) hy'
      · rw [if_pos rfl] at hx ⊢
        exact ih true ys hx hy'

theorem goodLines_filterNE : ∀ (ls : List Line) (ic : Bool),
    goodLines ic (filterNE ls) = goodLines ic ls := by
  intro ls
  induction ls with
  | nil => intro ic; rfl
  | cons x ls ih =>
    intro ic
    by_cases hx : x = []
    · subst hx
      rw [show filterNE ([] :: ls) = filterNE ls from by simp [filterNE], ih]
      cases ic
      · rw [goodLines, if_neg (by simp [isFence_nil]), if_neg (by simp),
          show reHeading ([] : Line) = none from by decide]
        simp
      · rw [goodLines, if_neg (by simp [isFence_nil]), if_pos rfl]
    · have hfil : filterNE (x :: ls) = x :: filterNE ls := by
        simp [filterNE, List.filter_cons, List.isEmpty_iff, hx]
      rw [hfil, goodLines, goodLines]
      by_cases hF : isFence x = true
      · rw [if_pos hF, if_pos hF, ih]
      · rw [if_neg hF, if_neg hF]
        cases ic
        · rw [if_neg (by simp), if_neg (by simp), ih]
        · rw [if_pos rfl, if_pos rfl, ih]

theorem fenceCount_filterNE : ∀ ls : List Line,
    fenceCount (filterNE ls) = fenceCount ls := by
  intro ls
  induction ls with
  | nil => rfl
  | cons x ls ih =>
    by_cases hx : x = []
    · subst hx
      rw [show filterNE ([] :: ls) = filterNE ls from by simp [filterNE], ih,
        fenceCount_cons, isFence_nil]
      simp
    · have hfil : filterNE (x :: ls) = x :: filterNE ls := by
        simp [filterNE, List.filter_cons, List.isEmpty_iff, hx]
      rw [hfil, fenceCount_cons, fenceCount_cons, ih]

/-! ### Facts about the newline-collapse cleanup -/

theorem emitNl_eq_replicate (k : Nat) :
    emitNl k = List.replicate (if 4 ≤ k then 2 else k) '\n' := by
  rw [emitNl]
  split_ifs <;> rfl

theorem splitNl_replicate_nl : ∀ (j : Nat) (x : Line),
    splitNl (List.replicate j '\n' ++ x) = List.replicate j [] ++ splitNl x := by
  intro j
  induction j with
  | zero => intro x; simp
  | succ j ih =>
    intro x
    rw [List.replicate_succ, List.cons_append, splitNl_cons_nl, ih,
      List.replicate_succ, List.cons_append]

theorem filterNE_replicate_nil : ∀ j : Nat,
    filterNE (List.replicate j []) = [] := by
  intro j
  induction j with
  | zero => rfl
  | succ j ih =>
    rw [List.replicate_succ,
      show filterNE (([] : Line) :: List.replicate j []) =
        filterNE (List.replicate j []) from by simp [filterNE], ih]

theorem filterNE_append (x y : List Line) :
    filterNE (x ++ y) = filterNE x ++ filterNE y := by
  simp [filterNE, List.filter_append]

theorem collapse_head : ∀ (s : Line) (k : Nat), 1 ≤ k →
    ∃ r, collapseAux k s = '\n' :: r := by
  intro s
  induction s with
  | nil =>
    intro k hk
    rw [show collapseAux k [] = emitNl k from rfl, emitNl_eq_replicate]
    by_cases h4 : 4 ≤ k
    · rw [if_pos h4]
      exact ⟨['\n'], rfl⟩
    · rw [if_neg h4]
      obtain ⟨m, rfl⟩ : ∃ m, k = m + 1 := ⟨k - 1, by omega⟩
      rw [List.replicate_succ]
      exact ⟨_, rfl⟩
  | cons c cs ih =>
    intro k hk
    by_cases hc : c = '\n'
    · rw [show collapseAux k (c :: cs) = collapseAux (k + 1) cs from by
        simp [collapseAux, hc]]
      exact ih (k + 1) (by omega)
    · rw [show collapseAux k (c :: cs) = emitNl k ++ c :: collapseAux 0 cs from by
        simp [collapseAux, hc], emitNl_eq_replicate]
      by_cases h4 : 4 ≤ k
      · rw [if_pos h4]
        exact ⟨_, rfl⟩
      · rw [if_neg h4]
        obtain ⟨m, rfl⟩ : ∃ m, k = m + 1 := ⟨k - 1, by omega⟩
        rw [List.replicate_succ, List.cons_append]
        exact ⟨_, rfl⟩

theorem filterNE_cons_ne {h : Line} (hE : h ≠ []) (t : List Line) :
    filterNE (h :: t) = h :: filterNE t := by
  simp [filterNE, List.filter_cons, List.isEmpty_iff, hE]

/-- The newline collapse preserves the sequence of non-blank lines, and
(started with no pending newlines) the first line of the text. -/
theorem collapse_filterNE_aux : ∀ (s : Line) (k : Nat),
    filterNE (splitNl (collapseAux k s)) = filterNE (splitNl s) ∧
    (k = 0 → (splitNl (collapseAux k s)).head? = (splitNl s).head?) := by
  intro s
  induction s with
  | nil =>
    intro k
    constructor
    · rw [show collapseAux k [] = emitNl k from rfl, emitNl_eq_replicate,
        show List.replicate (if 4 ≤ k then 2 else k) '\n' =
          List.replicate (if 4 ≤ k then 2 else k) '\n' ++ [] from
          (List.append_nil _).symm,
        splitNl_replicate_nl, splitNl_nil, filterNE_append,
        filterNE_replicate_nil, List.nil_append]
    · intro hk
      subst hk
      rfl
  | cons c cs ih =>
    intro k
    by_cases hc : c = '\n'
    · subst hc
      rw [show collapseAux k ('\n' :: cs) = collapseAux (k + 1) cs from by
        simp [collapseAux]]
      constructor
      · rw [(ih (k + 1)).1, splitNl_cons_nl,
          show filterNE (([] : Line) :: splitNl cs) = filterNE (splitNl cs) from
            by simp [filterNE]]
      · intro _
        obtain ⟨r, hr⟩ := collapse_head cs (k + 1) (by omega)
        rw [hr, splitNl_cons_nl, splitNl_cons_nl]
        rfl
    · have heq : collapseAux k (c :: cs) = emitNl k ++ c :: collapseAux 0 cs := by
        simp [collapseAux, hc]
      obtain ⟨h, t, hs⟩ := splitNl_dest (collapseAux 0 cs)
      obtain ⟨h2, t2, hs2⟩ := splitNl_dest cs
      have hof := (ih 0).2 rfl
      rw [hs, hs2, List.head?_cons, List.head?_cons] at hof
      injection hof with hhh
      subst hhh
      have hfil : filterNE t = filterNE t2 := by
        have h1 := (ih 0).1
        rw [hs, hs2] at h1
        by_cases hE : h = []
        · subst hE
          simpa [filterNE] using h1
        · rw [filterNE_cons_ne hE, filterNE_cons_ne hE] at h1
          injection h1 with _ h1b
      constructor
      · rw [heq, emitNl_eq_replicate, splitNl_replicate_nl, filterNE_append,
          filterNE_replicate_nil, List.nil_append,
          splitNl_cons_of hc hs, splitNl_cons_of hc hs2,
          filterNE_cons_ne (List.cons_ne_nil c h) t,
          filterNE_cons_ne (List.cons_ne_nil c h) t2, hfil]
      · intro hk
        subst hk
        rw [heq, emitNl_eq_replicate, if_neg (by omega),
          show List.replicate 0 '\n' = [] from rfl, List.nil_append,
          splitNl_cons_of hc hs, splitNl_cons_of hc hs2,
          List.head?_cons, List.head?_cons]

theorem mem_collapseAux : ∀ (s : Line) (k : Nat) {c : Char},
    c ∈ collapseAux k s → c ∈ s ∨ c = '\n' := by
  intro s
  induction s with
  | nil =>
    intro k c h
    rw [show collapseAux k [] = emitNl k from rfl, emitNl_eq_replicate] at h
    exact Or.inr (List.eq_of_mem_replicate h)
  | cons d cs ih =>
    intro k c h
    by_cases hd : d = '\n'
    · rw [show collapseAux k (d :: cs) = collapseAux (k + 1) cs from by
        simp [collapseAux, hd]] at h
      rcases ih (k + 1) h with h1 | h1
      · exact Or.inl (List.mem_cons_of_mem _ h1)
      · exact Or.inr h1
    · rw [show collapseAux k (d :: cs) = emitNl k ++ d :: collapseAux 0 cs from by
        simp [collapseAux, hd]] at h
      rcases List.mem_append.mp h with h1 | h1
      · rw [emitNl_eq_replicate] at h1
        exact Or.inr (List.eq_of_mem_replicate h1)
      · rcases List.mem_cons.mp h1 with h2 | h2
        · exact Or.inl (by rw [h2]; exact List.mem_cons_self _ _)
        · rcases ih 0 h2 with h3 | h3
          · exact Or.inl (List.mem_cons_of_mem _ h3)
          · exact Or.inr h3

theorem pairFree_replicate_nl {a b : Char} (ha : a ≠ '\n') :
    ∀ j : Nat, pairFree a b (List.replicate j '\n') = true := by
  intro j
  induction j with
  | zero => rfl
  | succ j ih =>
    rw [List.replicate_succ]
    exact pairFree_cons_of_ne (Ne.symm ha) ih

theorem getLast_replicate_nl : ∀ (j : Nat) (e : Char),
    (List.replicate j '\n').getLast? = some e → e = '\n' := by
  intro j
  induction j with
  | zero => intro e h; cases h
  | succ j ih =>
    intro e h
    rw [List.replicate_succ] at h
    rcases j with _ | j
    · injection h with h2
      exact h2.symm
    · rw [List.replicate_succ, List.getLast?_cons_cons, ← List.replicate_succ] at h
      exact ih e h

theorem pairFree_collapseAux {a b : Char} (ha : a ≠ '\n') (hb : b ≠ '\n') :
    ∀ (s : Line) (k : Nat), pairFree a b s = true →
    pairFree a b (collapseAux k s) = true := by
  intro s
  induction s with
  | nil =>
    intro k _
    rw [show collapseAux k [] = emitNl k from rfl, emitNl_eq_replicate]
    exact pairFree_replicate_nl ha _
  | cons c cs ih =>
    intro k h
    by_cases hc : c = '\n'
    · rw [show collapseAux k (c :: cs) = collapseAux (k + 1) cs from by
        simp [collapseAux, hc]]
      exact ih (k + 1) (pairFree_tail h)
    · rw [show collapseAux k (c :: cs) = emitNl k ++ c :: collapseAux 0 cs from by
        simp [collapseAux, hc]]
      apply pairFree_append_intro
        (by rw [emitNl_eq_replicate]; exact pairFree_replicate_nl ha _)
      · apply pairFree_cons_safe
        · intro e he hcon
          rcases cs with _ | ⟨d, cs'⟩
          · cases he
          · by_cases hd : d = '\n'
            · obtain ⟨r, hr⟩ := collapse_head cs' 1 (by omega)
              rw [show collapseAux 0 (d :: cs') = collapseAux 1 cs' from by
                simp [collapseAux, hd], hr, List.head?_cons] at he
              injection he with he2
              exact hb (he2.trans hcon.2).symm
            · rw [show collapseAux 0 (d :: cs') =
                  emitNl 0 ++ d :: collapseAux 0 cs' from by
                simp [collapseAux, hd],
                show emitNl 0 = [] from rfl, List.nil_append,
                List.head?_cons] at he
              injection he with he2
              rw [pairFree, Bool.and_eq_true] at h
              have h2 := h.1
              simp only [Bool.not_eq_eq_eq_not, Bool.not_true,
                decide_eq_false_iff_not] at h2
              exact h2 ⟨hcon.1, he2 ▸ hcon.2⟩
        · exact ih 0 (pairFree_tail h)
      · intro cx hcx cy _ hcon
        rw [emitNl_eq_replicate] at hcx
        exact ha (hcon.1.symm.trans (getLast_replicate_nl _ cx hcx))

theorem collapseNl_no_nl {s : Line} (h : '\n' ∉ s) : collapseNl s = s := by
  rw [collapseNl]
  induction s with
  | nil => rfl
  | cons c cs ih =>
    have hc : c ≠ '\n' := fun he => h (by rw [he]; exact List.mem_cons_self _ _)
    rw [show collapseAux 0 (c :: cs) = emitNl 0 ++ c :: collapseAux 0 cs from by
      simp [collapseAux, hc], show emitNl 0 = [] from rfl, List.nil_append,
      ih (fun hm => h (List.mem_cons_of_mem _ hm))]

/-! ### Lines of a pair-free text are pair-free -/

theorem pairFree_splitNl {a b : Char} : ∀ {t : Line}, pairFree a b t = true →
    ∀ x ∈ splitNl t, pairFree a b x = true := by
  intro t
  induction t with
  | nil =>
    intro _ x hx
    rw [splitNl_nil] at hx
    rcases List.mem_cons.mp hx with h1 | h1
    · subst h1; rfl
    · cases h1
  | cons c cs ih =>
    intro h x hx
    by_cases hc : c = '\n'
    · subst hc
      rw [splitNl_cons_nl] at hx
      rcases List.mem_cons.mp hx with h1 | h1
      · subst h1; rfl
      · exact ih (pairFree_tail h) x h1
    · obtain ⟨h0, t0, hs⟩ := splitNl_dest cs
      rw [splitNl_cons_of hc hs] at hx
      rcases List.mem_cons.mp hx with h1 | h1
      · subst h1
        apply pairFree_cons_safe
        · intro e he hcon
          rcases cs with _ | ⟨d, cs'⟩
          · rw [splitNl_nil] at hs
            injection hs with hs1 _
            rw [← hs1] at he
            cases he
          · by_cases hd : d = '\n'
            · subst hd
              rw [splitNl_cons_nl] at hs
              injection hs with hs1 _
              rw [← hs1] at he
              cases he
            · obtain ⟨h1', t1', hs'⟩ := splitNl_dest cs'
              rw [splitNl_cons_of hd hs'] at hs
              injection hs with hs1 _
              rw [← hs1, List.head?_cons] at he
              injection he with he2
              rw [pairFree, Bool.and_eq_true] at h
              have h2 := h.1
              simp only [Bool.not_eq_eq_eq_not, Bool.not_true,
                decide_eq_false_iff_not] at h2
              exact h2 ⟨hcon.1, he2 ▸ hcon.2⟩
        · exact ih (pairFree_tail h) h0 (by rw [hs]; exact List.mem_cons_self _ _)
      · exact ih (pairFree_tail h) x (by rw [hs]; exact List.mem_cons_of_mem _ h1)

theorem mem_splitNl : ∀ (t : Line) (x : Line), x ∈ splitNl t →
    ∀ c ∈ x, c ∈ t := by
  intro t
  induction t with
  | nil =>
    intro x hx c hc
    rw [splitNl_nil] at hx
    rcases List.mem_cons.mp hx with h1 | h1
    · subst h1; cases hc
    · cases h1
  | cons d cs ih =>
    intro x hx c hc
    by_cases hd : d = '\n'
    · subst hd
      rw [splitNl_cons_nl] at hx
      rcases List.mem_cons.mp hx with h1 | h1
      · subst h1; cases hc
      · exact List.mem_cons_of_mem _ (ih x h1 c hc)
    · obtain ⟨h0, t0, hs⟩ := splitNl_dest cs
      rw [splitNl_cons_of hd hs] at hx
      rcases List.mem_cons.mp hx with h1 | h1
      · subst h1
        rcases List.mem_cons.mp hc with h2 | h2
        · subst h2; exact List.mem_cons_self _ _
        · exact List.mem_cons_of_mem _
            (ih h0 (by rw [hs]; exact List.mem_cons_self _ _) c h2)
      · exact List.mem_cons_of_mem _
          (ih x (by rw [hs]; exact List.mem_cons_of_mem _ h1) c hc)

/-! ### Facts about the global pre-pass -/

theorem contains_false_iff {a : Char} {l : Line} :
    l.contains a = false ↔ a ∉ l := by
  simp

theorem mem_removeChar {c a : Char} {l : Line} (h : c ∈ removeChar a l) :
    c ∈ l ∧ c ≠ a := by
  rw [removeChar] at h
  have h2 := List.mem_filter.mp h
  exact ⟨h2.1, by simpa using h2.2⟩

theorem removeChar_not_mem (a : Char) (l : Line) : a ∉ removeChar a l :=
  fun h => (mem_removeChar h).2 rfl

theorem removeChar_eq_self {a : Char} {l : Line} (h : a ∉ l) :
    removeChar a l = l := by
  rw [removeChar]
  apply List.filter_eq_self.mpr
  intro x hx
  simp only [ne_eq, decide_eq_true_eq]
  exact fun he => h (he ▸ hx)

theorem mem_replaceSeg2 {a b : Char} {r : Line} {c : Char} : ∀ {l : Line},
    c ∈ replaceSeg2 a b r l → c ∈ l ∨ c ∈ r := by
  suffices H : ∀ (n : Nat) (l : Line), l.length ≤ n →
      c ∈ replaceSeg2 a b r l → c ∈ l ∨ c ∈ r by
    intro l h
    exact H l.length l le_rfl h
  intro n
  induction n with
  | zero =>
    intro l hlen h
    have hl : l = [] := List.length_eq_zero.mp (Nat.le_zero.mp hlen)
    subst hl
    simp only [replaceSeg2] at h
    cases h
  | succ n ih =>
    intro l hlen h
    rcases l with _ | ⟨x, _ | ⟨y, rest⟩⟩
    · simp only [replaceSeg2] at h
      cases h
    · simp only [replaceSeg2] at h
      exact Or.inl h
    · simp only [replaceSeg2] at h
      simp only [List.length_cons] at hlen
      by_cases hxy : x = a ∧ y = b
      · rw [if_pos hxy] at h
        rcases List.mem_append.mp h with h1 | h1
        · exact Or.inr h1
        · rcases ih rest (by omega) h1 with h2 | h2
          · exact Or.inl (List.mem_cons_of_mem _ (List.mem_cons_of_mem _ h2))
          · exact Or.inr h2
      · rw [if_neg hxy] at h
        rcases List.mem_cons.mp h with h1 | h1
        · exact Or.inl (by rw [h1]; exact List.mem_cons_self _ _)
        · rcases ih (y :: rest) (by simp; omega) h1 with h2 | h2
          · exact Or.inl (List.mem_cons_of_mem _ h2)
          · exact Or.inr h2

theorem replaceSeg2_id_of_pairFree {a b : Char} {r : Line} : ∀ {l : Line},
    pairFree a b l = true → replaceSeg2 a b r l = l := by
  suffices H : ∀ (n : Nat) (l : Line), l.length ≤ n →
      pairFree a b l = true → replaceSeg2 a b r l = l by
    intro l h
    exact H l.length l le_rfl h
  intro n
  induction n with
  | zero =>
    intro l hlen _
    have hl : l = [] := List.length_eq_zero.mp (Nat.le_zero.mp hlen)
    subst hl
    rfl
  | succ n ih =>
    intro l hlen h
    rcases l with _ | ⟨x, _ | ⟨y, rest⟩⟩
    · rfl
    · rfl
    · simp only [replaceSeg2]
      simp only [List.length_cons] at hlen
      rw [pairFree, Bool.and_eq_true] at h
      have h1 := h.1
      simp only [Bool.not_eq_eq_eq_not, Bool.not_true,
        decide_eq_false_iff_not] at h1
      rw [if_neg h1, ih (y :: rest) (by simp; omega) h.2]

theorem replaceSeg2_head {a b : Char} {r : Line} (hr : r ≠ []) {l : Line}
    (hl : l ≠ []) : (replaceSeg2 a b r l).head? = l.head? ∨
      (replaceSeg2 a b r l).head? = r.head? := by
  rcases l with _ | ⟨x, _ | ⟨y, rest⟩⟩
  · exact absurd rfl hl
  · left; rfl
  · simp only [replaceSeg2]
    by_cases hxy : x = a ∧ y = b
    · rw [if_pos hxy]
      right
      rcases r with _ | ⟨rh, rt⟩
      · exact absurd rfl hr
      · rw [List.cons_append, List.head?_cons, List.head?_cons]
    · rw [if_neg hxy]
      left
      rw [List.head?_cons, List.head?_cons]

/-- `str.replace(ab, r)` leaves no `ab` pair behind when the replacement
cannot recreate one (its first character is not `b`, its last is not `a`). -/
theorem replaceSeg2_pairFree_self {a b : Char} {r : Line} (hr : r ≠ [])
    (hfr : pairFree a b r = true) (hh : ∀ e, r.head? = some e → e ≠ b)
    (hl : ∀ e, r.getLast? = some e → e ≠ a) :
    ∀ {l : Line}, pairFree a b (replaceSeg2 a b r l) = true := by
  suffices H : ∀ (n : Nat) (l : Line), l.length ≤ n →
      pairFree a b (replaceSeg2 a b r l) = true by
    intro l
    exact H l.length l le_rfl
  intro n
  induction n with
  | zero =>
    intro l hlen
    have hl0 : l = [] := List.length_eq_zero.mp (Nat.le_zero.mp hlen)
    subst hl0
    rfl
  | succ n ih =>
    intro l hlen
    rcases l with _ | ⟨x, _ | ⟨y, rest⟩⟩
    · rfl
    · rfl
    · simp only [replaceSeg2]
      simp only [List.length_cons] at hlen
      by_cases hxy : x = a ∧ y = b
      · rw [if_pos hxy]
        apply pairFree_append_intro hfr (ih rest (by omega))
        intro cx hcx cy _ hcon
        exact hl cx hcx hcon.1
      · rw [if_neg hxy]
        apply pairFree_cons_safe
        · intro e he hcon
          rcases replaceSeg2_head hr (List.cons_ne_nil y rest) with h1 | h1
          · rw [h1, List.head?_cons] at he
            injection he with he2
            exact hxy ⟨hcon.1, he2 ▸ hcon.2⟩
          · rw [h1] at he
            exact hh e he hcon.2
        · exact ih (y :: rest) (by simp; omega)

/-- `str.replace` with another pattern preserves the absence of an `ab`
pair, under the same conditions on the replacement. -/
theorem replaceSeg2_pairFree_other {a b q w : Char} {r : Line} (hr : r ≠ [])
    (hfr : pairFree a b r = true) (hh : ∀ e, r.head? = some e → e ≠ b)
    (hl : ∀ e, r.getLast? = some e → e ≠ a) :
    ∀ {l : Line}, pairFree a b l = true →
      pairFree a b (replaceSeg2 q w r l) = true := by
  suffices H : ∀ (n : Nat) (l : Line), l.length ≤ n → pairFree a b l = true →
      pairFree a b (replaceSeg2 q w r l) = true by
    intro l h
    exact H l.length l le_rfl h
  intro n
  induction n with
  | zero =>
    intro l hlen _
    have hl0 : l = [] := List.length_eq_zero.mp (Nat.le_zero.mp hlen)
    subst hl0
    rfl
  | succ n ih =>
    intro l hlen h
    rcases l with _ | ⟨x, _ | ⟨y, rest⟩⟩
    · rfl
    · rfl
    · simp only [replaceSeg2]
      simp only [List.length_cons] at hlen
      by_cases hxy : x = q ∧ y = w
      · rw [if_pos hxy]
        apply pairFree_append_intro hfr
          (ih rest (by omega) (pairFree_tail (pairFree_tail h)))
        intro cx hcx cy _ hcon
        exact hl cx hcx hcon.1
      · rw [if_neg hxy]
        apply pairFree_cons_safe
        · intro e he hcon
          rcases replaceSeg2_head hr (List.cons_ne_nil y rest) with h1 | h1
          · rw [h1, List.head?_cons] at he
            injection he with he2
            rw [pairFree, Bool.and_eq_true] at h
            have h2 := h.1
            simp only [Bool.not_eq_eq_eq_not, Bool.not_true,
              decide_eq_false_iff_not] at h2
            exact h2 ⟨hcon.1, he2 ▸ hcon.2⟩
          · rw [h1] at he
            exact hh e he hcon.2
        · exact ih (y :: rest) (by simp; omega) (pairFree_tail h)

theorem prePass_step1 (t : Line) :
    (if t.contains zwsp = true then removeChar zwsp t else t) =
      removeChar zwsp t := by
  by_cases hz : t.contains zwsp = true
  · rw [if_pos hz]
  · rw [if_neg hz,
      removeChar_eq_self (contains_false_iff.mp (Bool.eq_false_iff.mpr hz))]

theorem prePass_step2 (s : Line) :
    (if (hasSeg ['\\', '['] s || hasSeg ['\\', ']'] s) = true then
        replaceSeg2 '\\' ']' ['$', '$'] (replaceSeg2 '\\' '[' ['$', '$'] s)
      else s) =
      replaceSeg2 '\\' ']' ['$', '$'] (replaceSeg2 '\\' '[' ['$', '$'] s) := by
  by_cases hbf : (hasSeg ['\\', '['] s || hasSeg ['\\', ']'] s) = true
  · rw [if_pos hbf]
  · have h2 := Bool.eq_false_iff.mpr hbf
    rw [Bool.or_eq_false_iff] at h2
    rw [if_neg hbf,
      replaceSeg2_id_of_pairFree (pairFree_of_hasSeg_eq_false h2.1),
      replaceSeg2_id_of_pairFree (pairFree_of_hasSeg_eq_false h2.2)]

theorem prePass_step3 (s : Line) :
    (if (hasSeg ['\\', '('] s || hasSeg ['\\', ')'] s) = true then
        replaceSeg2 '\\' ')' ['$'] (replaceSeg2 '\\' '(' ['$'] s)
      else s) =
      replaceSeg2 '\\' ')' ['$'] (replaceSeg2 '\\' '(' ['$'] s) := by
  by_cases hbf : (hasSeg ['\\', '('] s || hasSeg ['\\', ')'] s) = true
  · rw [if_pos hbf]
  · have h2 := Bool.eq_false_iff.mpr hbf
    rw [Bool.or_eq_false_iff] at h2
    rw [if_neg hbf,
      replaceSeg2_id_of_pairFree (pairFree_of_hasSeg_eq_false h2.1),
      replaceSeg2_id_of_pairFree (pairFree_of_hasSeg_eq_false h2.2)]

/-- The conditional pre-pass equals its unconditional composition: each
conditional stage fires exactly when its pattern occurs, and a
`str.replace` with no occurrence is the identity. -/
theorem prePassText_eq (t : Line) : prePassText t =
    replaceSeg2 '\\' ')' ['$'] (replaceSeg2 '\\' '(' ['$']
      (replaceSeg2 '\\' ']' ['$', '$'] (replaceSeg2 '\\' '[' ['$', '$']
        (removeChar zwsp t)))) := by
  rw [prePassText, prePass]
  dsimp only
  rw [prePass_step1, prePass_step2, prePass_step3]

theorem dollar1_head : ∀ e, (['$'] : Line).head? = some e → e = '$' := by
  intro e he
  injection he with h2
  exact h2.symm

theorem dollar1_last : ∀ e, (['$'] : Line).getLast? = some e → e = '$' := by
  intro e he
  injection he with h2
  exact h2.symm

theorem dollar2_head : ∀ e, (['$', '$'] : Line).head? = some e → e = '$' := by
  intro e he
  injection he with h2
  exact h2.symm

theorem dollar2_last : ∀ e, (['$', '$'] : Line).getLast? = some e → e = '$' := by
  intro e he
  injection he with h2
  exact h2.symm

/-- After the pre-pass the text holds no `\[`, `\]`, `\(` or `\)` pair and
no zero-width space. -/
theorem prePass_pairFree (t : Line) :
    pairFree '\\' '[' (prePassText t) = true ∧
    pairFree '\\' ']' (prePassText t) = true ∧
    pairFree '\\' '(' (prePassText t) = true ∧
    pairFree '\\' ')' (prePassText t) = true ∧
    zwsp ∉ prePassText t := by
  rw [prePassText_eq]
  have hr1 : (['$'] : Line) ≠ [] := by decide
  have hr2 : (['$', '$'] : Line) ≠ [] := by decide
  refine ⟨?_, ?_, ?_, ?_, ?_⟩
  · apply replaceSeg2_pairFree_other hr1 (by decide)
      (fun e he => by rw [dollar1_head e he]; decide)
      (fun e he => by rw [dollar1_last e he]; decide)
    apply replaceSeg2_pairFree_other hr1 (by decide)
      (fun e he => by rw [dollar1_head e he]; decide)
      (fun e he => by rw [dollar1_last e he]; decide)
    apply replaceSeg2_pairFree_other hr2 (by decide)
      (fun e he => by rw [dollar2_head e he]; decide)
      (fun e he => by rw [dollar2_last e he]; decide)
    exact replaceSeg2_pairFree_self hr2 (by decide)
      (fun e he => by rw [dollar2_head e he]; decide)
      (fun e he => by rw [dollar2_last e he]; decide)
  · apply replaceSeg2_pairFree_other hr1 (by decide)
      (fun e he => by rw [dollar1_head e he]; decide)
      (fun e he => by rw [dollar1_last e he]; decide)
    apply replaceSeg2_pairFree_other hr1 (by decide)
      (fun e he => by rw [dollar1_head e he]; decide)
      (fun e he => by rw [dollar1_last e he]; decide)
    exact replaceSeg2_pairFree_self hr2 (by decide)
      (fun e he => by rw [dollar2_head e he]; decide)
      (fun e he => by rw [dollar2_last e he]; decide)
  · apply replaceSeg2_pairFree_other hr1 (by decide)
      (fun e he => by rw [dollar1_head e he]; decide)
      (fun e he => by rw [dollar1_last e he]; decide)
    exact replaceSeg2_pairFree_self hr1 (by decide)
      (fun e he => by rw [dollar1_head e he]; decide)
      (fun e he => by rw [dollar1_last e he]; decide)
  · exact replaceSeg2_pairFree_self hr1 (by decide)
      (fun e he => by rw [dollar1_head e he]; decide)
      (fun e he => by rw [dollar1_last e he]; decide)
  · intro h
    rcases mem_replaceSeg2 h with h1 | h1
    swap
    · exact absurd h1 (by decide)
    rcases mem_replaceSeg2 h1 with h2 | h2
    swap
    · exact absurd h2 (by decide)
    rcases mem_replaceSeg2 h2 with h3 | h3
    swap
    · exact absurd h3 (by decide)
    rcases mem_replaceSeg2 h3 with h4 | h4
    swap
    · exact absurd h4 (by decide)
    exact removeChar_not_mem zwsp t h4

/-- The pre-pass is idempotent on its own output. -/
theorem prePassText_idem (t : Line) :
    prePassText (prePassText t) = prePassText t := by
  obtain ⟨p1, p2, p3, p4, hz⟩ := prePass_pairFree t
  have hc : (prePassText t).contains zwsp = false := contains_false_iff.mpr hz
  have hs1 : hasSeg ['\\', '['] (prePassText t) = false := by
    rw [hasSeg_pair_eq, p1]; rfl
  have hs2 : hasSeg ['\\', ']'] (prePassText t) = false := by
    rw [hasSeg_pair_eq, p2]; rfl
  have hs3 : hasSeg ['\\', '('] (prePassText t) = false := by
    rw [hasSeg_pair_eq, p3]; rfl
  have hs4 : hasSeg ['\\', ')'] (prePassText t) = false := by
    rw [hasSeg_pair_eq, p4]; rfl
  rw [prePassText, prePass]
  dsimp only
  rw [hc]
  simp only [Bool.false_eq_true, if_false]
  rw [hs1, hs2]
  simp only [Bool.false_or, Bool.false_eq_true, if_false]
  rw [hs3, hs4]
  simp only [Bool.false_or, Bool.false_eq_true, if_false]

/-! ### Properties of the full pipeline's output -/

/-- Fence parity of the final output (helper shared by several claims). -/
theorem out_fence_even (t : Line) :
    fenceCount (splitNl ((smart_fix_markdown t).1)) % 2 = 0 := by
  by_cases ht : t = []
  · subst ht
    decide
  · rw [smart_fix_markdown, if_neg ht]
    dsimp only
    rw [show (prePass t).text = prePassText t from rfl]
    have hnl : ∀ x ∈ (scanAux [] 0 false false
        (splitNl (prePassText t))).out, '\n' ∉ x :=
      scan_lines_no_nl (splitNl_no_nl _) [] 0 false false
    have hne : (scanAux [] 0 false false
        (splitNl (prePassText t))).out ≠ [] :=
      scan_out_ne [] 0 false false (splitNl_ne_nil _)
    have hjs := splitNl_joinNl _ hnl hne
    obtain ⟨hfc, hfin⟩ := scan_fence_final (splitNl (prePassText t)) [] 0 false false
    rw [collapseNl, ← fenceCount_filterNE, (collapse_filterNE_aux _ 0).1,
      fenceCount_filterNE]
    by_cases hf : (scanAux [] 0 false false
        (splitNl (prePassText t))).final = true
    · rw [if_pos hf, splitNl_append, hjs, splitNl_single (l := [tick, tick, tick]) (by decide),
        fenceCount_append, hfc]
      have h1 : fenceCount [[tick, tick, tick]] = 1 := by decide
      rw [h1]
      rw [hf, Bool.false_xor] at hfin
      have hp : fenceCount (splitNl (prePassText t)) % 2 = 1 :=
        of_decide_eq_true hfin.symm
      omega
    · have hff : (scanAux [] 0 false false
          (splitNl (prePassText t))).final = false := Bool.eq_false_iff.mpr hf
      rw [if_neg hf, hjs, hfc]
      rw [hff, Bool.false_xor] at hfin
      have hp : ¬ fenceCount (splitNl (prePassText t)) % 2 = 1 :=
        of_decide_eq_false hfin.symm
      omega

/-- Pair-freedom of the final output, for any pair formed of characters the
pipeline never inserts. -/
theorem out_pairFree_gen (t : Line) {a b : Char}
    (hpre : pairFree a b (prePassText t) = true)
    (ha1 : a ≠ ' ') (hb1 : b ≠ ' ') (ha2 : a ≠ '*') (hb2 : b ≠ '*')
    (ha3 : a ≠ '$') (hb3 : b ≠ '$') (ha4 : a ≠ '^') (hb4 : b ≠ '^')
    (han : a ≠ '\n') (hbn : b ≠ '\n') (hat : a ≠ tick) :
    pairFree a b ((smart_fix_markdown t).1) = true := by
  by_cases ht : t = []
  · subst ht
    rw [smart_fix_markdown, if_pos rfl]
    rfl
  · rw [smart_fix_markdown, if_neg ht]
    dsimp only
    rw [show (prePass t).text = prePassText t from rfl, collapseNl]
    apply pairFree_collapseAux han hbn
    have hlines : ∀ x ∈ (scanAux [] 0 false false
        (splitNl (prePassText t))).out, pairFree a b x = true := by
      intro x hx
      rcases scan_mem _ [] 0 false false x hx with h1 | ⟨l, hl, h2 | h2⟩
      · subst h1; rfl
      · rw [h2]
        exact pairFree_splitNl hpre l hl
      · rw [h2]
        exact pairFree_repairLine ha1 hb1 ha2 hb2 ha3 hb3 ha4 hb4
          (pairFree_splitNl hpre l hl)
    have hjoin : pairFree a b (joinNl (scanAux [] 0 false false
        (splitNl (prePassText t))).out) = true :=
      pairFree_joinNl (Ne.symm han) (Ne.symm hbn) hlines
    split
    · apply pairFree_append_intro hjoin
      · apply pairFree_cons_of_ne (Ne.symm han)
        apply pairFree_cons_of_ne (Ne.symm hat)
        apply pairFree_cons_of_ne (Ne.symm hat)
        rfl
      · intro cx _ cy hcy hcon
        rw [List.head?_cons] at hcy
        injection hcy with hcy2
        exact hbn (hcy2.trans hcon.2).symm
    · exact hjoin

/-- The final output never holds a zero-width space. -/
theorem out_zwsp (t : Line) : zwsp ∉ (smart_fix_markdown t).1 := by
  by_cases ht : t = []
  · subst ht
    rw [smart_fix_markdown, if_pos rfl]
    intro h
    cases h
  · rw [smart_fix_markdown, if_neg ht]
    dsimp only
    rw [show (prePass t).text = prePassText t from rfl, collapseNl]
    intro h
    have hzp : zwsp ∉ prePassText t := (prePass_pairFree t).2.2.2.2
    have hout : ∀ x ∈ (scanAux [] 0 false false
        (splitNl (prePassText t))).out, zwsp ∉ x := by
      intro x hx hzin
      rcases scan_mem _ [] 0 false false x hx with h1 | ⟨l, hl, h2 | h2⟩
      · subst h1; cases hzin
      · rw [h2] at hzin
        exact hzp (mem_splitNl _ l hl zwsp hzin)
      · rw [h2] at hzin
        rcases mem_repairLine hzin with h3 | h3 | h3 | h3 | h3
        · exact hzp (mem_splitNl _ l hl zwsp h3)
        · exact absurd h3 (by decide)
        · exact absurd h3 (by decide)
        · exact absurd h3 (by decide)
        · exact absurd h3 (by decide)
    rcases mem_collapseAux _ 0 h with h1 | h1
    swap
    · exact absurd h1 (by decide)
    have hjoin : zwsp ∉ joinNl (scanAux [] 0 false false
        (splitNl (prePassText t))).out := by
      intro hj
      rcases mem_joinNl hj with ⟨l', hl', hc⟩ | hnl
      · exact hout l' hl' hc
      · exact absurd hnl (by decide)
    revert h1
    split
    · intro h1
      rcases List.mem_append.mp h1 with h2 | h2
      · exact hjoin h2
      · rcases List.mem_cons.mp h2 with h3 | h3
        · exact absurd h3 (by decide)
        · exact absurd h3 (by decide)
    · intro h1
      exact hjoin h1

/-- The final output is `goodLines` from prose state: no prose-reachable
line of it can match `re_heading`. -/
theorem out_good (t : Line) :
    goodLines false (splitNl ((smart_fix_markdown t).1)) = true := by
  by_cases ht : t = []
  · subst ht
    rw [smart_fix_markdown, if_pos rfl]
    decide
  · rw [smart_fix_markdown, if_neg ht]
    dsimp only
    rw [show (prePass t).text = prePassText t from rfl]
    have hnl : ∀ x ∈ (scanAux [] 0 false false
        (splitNl (prePassText t))).out, '\n' ∉ x :=
      scan_lines_no_nl (splitNl_no_nl _) [] 0 false false
    have hne : (scanAux [] 0 false false
        (splitNl (prePassText t))).out ≠ [] :=
      scan_out_ne [] 0 false false (splitNl_ne_nil _)
    have hjs := splitNl_joinNl _ hnl hne
    rw [collapseNl, ← goodLines_filterNE, (collapse_filterNE_aux _ 0).1,
      goodLines_filterNE]
    by_cases hf : (scanAux [] 0 false false
        (splitNl (prePassText t))).final = true
    · rw [if_pos hf, splitNl_append, hjs, splitNl_single (l := [tick, tick, tick]) (by decide)]
      apply goodLines_append _ false _ (scan_good _ [] 0 false false)
      exact goodLines_cons_of_fence (by decide) rfl
    · rw [if_neg hf, hjs]
      exact scan_good _ [] 0 false false

/-! ### The pipeline on runs of dollar signs (no `$$`-closure exists) -/

theorem runLen_replicate_zero {p : Char → Bool} {c : Char} (h : p c = false) :
    ∀ k, runLen p (List.replicate k c) = 0 := by
  intro k
  cases k with
  | zero => rfl
  | succ k => rw [List.replicate_succ]; simp [runLen, h]

theorem dropWhile_replicate_ne {p : Char → Bool} {c : Char} (h : p c = false) :
    ∀ k, List.dropWhile p (List.replicate k c) = List.replicate k c := by
  intro k
  cases k with
  | zero => rfl
  | succ k => rw [List.replicate_succ]; simp [List.dropWhile_cons, h]

theorem takeWhile_cons_neg {p : Char → Bool} {c : Char} (h : p c = false)
    (l : Line) : List.takeWhile p (c :: l) = [] := by
  simp [List.takeWhile_cons, h]

theorem pairFree_replicate {a b c : Char} (h : ¬(c = a ∧ c = b)) :
    ∀ k, pairFree a b (List.replicate k c) = true := by
  intro k
  induction k with
  | zero => rfl
  | succ k ih =>
    rw [List.replicate_succ]
    apply pairFree_cons_safe
    · intro e he hcon
      rcases k with _ | k2
      · cases he
      · rw [List.replicate_succ, List.head?_cons] at he
        injection he with he2
        exact h ⟨hcon.1, by rw [he2]; exact hcon.2⟩
    · exact ih

theorem hasSeg_replicate_ne {c0 c : Char} (h : ¬ c0 = c) (p : Line) :
    ∀ k, hasSeg (c0 :: p) (List.replicate k c) = false := by
  intro k
  induction k with
  | zero => rfl
  | succ k ih =>
    rw [List.replicate_succ, hasSeg, isSegAt_cons_cons]
    simp [h, ih]

theorem isSegAt_replicate_ne {c0 c : Char} (h : ¬ c0 = c) (p : Line) :
    ∀ k, isSegAt (c0 :: p) (List.replicate k c) = false := by
  intro k
  cases k with
  | zero => rfl
  | succ k =>
    rw [List.replicate_succ, isSegAt_cons_cons]
    simp [h]

/-- The inline-math rewrite never fires on a pure run of dollar signs (the
lazy group `[^\$\n]+?` needs a non-dollar character). -/
theorem mathSubF_dollar : ∀ (k f : Nat) (prev : Option Char),
    mathSubF f prev (List.replicate k '$') = List.replicate k '$' := by
  intro k
  induction k with
  | zero => intro f prev; cases f <;> rfl
  | succ k ih =>
    intro f prev
    rw [List.replicate_succ]
    cases f with
    | zero => rfl
    | succ f =>
      simp only [mathSubF]
      rw [if_pos trivial]
      by_cases hp : prev = some '$'
      · rw [if_pos hp, ih f (some '$'), ← List.replicate_succ]
      · rw [if_neg hp]
        have hm : mathMatch (List.replicate k '$') = none := by
          rw [mathMatch, runLen_replicate_zero (by decide)]
          rfl
        rw [hm]
        dsimp only
        rw [ih f (some '$'), ← List.replicate_succ]

theorem countDD_replicate : ∀ k, countDD (List.replicate (2 * k) '$') = k := by
  intro k
  induction k with
  | zero => rfl
  | succ k ih =>
    have h2 : 2 * (k + 1) = 2 * k + 1 + 1 := by omega
    rw [h2, List.replicate_succ, List.replicate_succ,
      show countDD ('$' :: '$' :: List.replicate (2 * k) '$') =
        1 + countDD (List.replicate (2 * k) '$') from by simp [countDD], ih]
    omega

theorem blanksBefore_nil_prev (c : Line) : blanksBefore [] c = [] := by
  rw [blanksBefore]
  split_ifs <;> simp_all [isBlank]

/-- No per-line repair touches a pure run of dollar signs. -/
theorem repairLine_dollar : ∀ k,
    repairLine (List.replicate k '$') = List.replicate k '$' := by
  intro k
  rcases k with _ | ⟨_ | k⟩
  · decide
  · decide
  · have hdw : List.dropWhile pyIsSpace (List.replicate (k + 1 + 1) '$') =
        List.replicate (k + 1 + 1) '$' := dropWhile_replicate_ne (by decide) _
    have htw : List.takeWhile pyIsSpace (List.replicate (k + 1 + 1) '$') =
        [] := by
      rw [List.replicate_succ]
      exact takeWhile_cons_neg (by decide) _
    have hexp : List.replicate (k + 1 + 1) '$' =
        '$' :: '$' :: List.replicate k '$' := by
      rw [List.replicate_succ, List.replicate_succ]
    have hh : reHeading (List.replicate (k + 1 + 1) '$') = none := by
      rw [reHeading_spec, runLen_replicate_zero (by decide), if_neg]
      rintro ⟨h1, _, _⟩
      omega
    have hq : reQuote (List.replicate (k + 1 + 1) '$') = none := by
      rw [reQuote, runLen_replicate_zero (by decide)]
      rfl
    have hu : reUl (List.replicate (k + 1 + 1) '$') = none := by
      rw [reUl]
      rw [hdw, hexp]
      dsimp only
      rw [if_neg]
      rintro ⟨h1, _⟩
      exact absurd h1 (by decide)
    have ho : reOl (List.replicate (k + 1 + 1) '$') = none := by
      rw [reOl]
      rw [hdw, runLen_replicate_zero (by decide), if_neg]
      rintro ⟨h1, _, _⟩
      omega
    have hb : hasSeg ['*', '*'] (List.replicate (k + 1 + 1) '$') = false :=
      hasSeg_replicate_ne (by decide) _ _
    have hdol : (List.replicate (k + 1 + 1) '$').contains '$' = true := by
      rw [hexp]
      simp
    have hsup : hasSeg supOpen (List.replicate (k + 1 + 1) '$') = false :=
      hasSeg_replicate_ne (by decide) _ _
    rw [repairLine, headingFix_eq_of_none hh, quoteFix_eq_of_none hq,
      ulFix_eq_of_none hu, olFix_eq_of_none ho, hb]
    simp only [Bool.false_eq_true, if_false]
    rw [hdol, if_pos rfl, mathSub, mathSubF_dollar]
    rw [hsup]
    simp only [Bool.false_eq_true, if_false]

theorem isFence_replicate_dollar (k : Nat) :
    isFence (List.replicate k '$') = false := by
  rw [isFence, dropWhile_replicate_ne (by decide)]
  exact isSegAt_replicate_ne (by decide) _ _

theorem reHr_replicate_dollar (k : Nat) :
    reHr (List.replicate k '$') = false := by
  rw [reHr]
  rw [dropWhile_replicate_ne (by decide)]
  rcases k with _ | k
  · rfl
  · rw [List.replicate_succ, takeWhile_cons_neg (by decide)]
    rfl

/-! ### The pre-pass distributes over line breaks -/

theorem removeChar_append_nl {a : Char} (h : a ≠ '\n') (x y : Line) :
    removeChar a (x ++ '\n' :: y) =
      removeChar a x ++ '\n' :: removeChar a y := by
  rw [removeChar, removeChar, removeChar, List.filter_append, List.filter_cons]
  simp [Ne.symm h]

theorem replaceSeg2_cons_nl {a b : Char} {r : Line} (ha : a ≠ '\n')
    (y : Line) : replaceSeg2 a b r ('\n' :: y) =
      '\n' :: replaceSeg2 a b r y := by
  rcases y with _ | ⟨c, ys⟩
  · rfl
  · simp only [replaceSeg2]
    rw [if_neg]
    rintro ⟨h1, _⟩
    exact ha h1.symm

theorem replaceSeg2_append_nl {a b : Char} {r : Line} (ha : a ≠ '\n')
    (hb : b ≠ '\n') : ∀ (x y : Line), replaceSeg2 a b r (x ++ '\n' :: y) =
      replaceSeg2 a b r x ++ '\n' :: replaceSeg2 a b r y := by
  suffices H : ∀ (n : Nat) (x : Line), x.length ≤ n → ∀ y,
      replaceSeg2 a b r (x ++ '\n' :: y) =
        replaceSeg2 a b r x ++ '\n' :: replaceSeg2 a b r y by
    intro x y
    exact H x.length x le_rfl y
  intro n
  induction n with
  | zero =>
    intro x hlen y
    have hx : x = [] := List.length_eq_zero.mp (Nat.le_zero.mp hlen)
    subst hx
    rw [List.nil_append, replaceSeg2_cons_nl ha]
    rfl
  | succ n ih =>
    intro x hlen y
    rcases x with _ | ⟨d, _ | ⟨e, rest⟩⟩
    · rw [List.nil_append, replaceSeg2_cons_nl ha]
      rfl
    · rw [List.cons_append, List.nil_append]
      have hstep : replaceSeg2 a b r (d :: '\n' :: y) =
          d :: replaceSeg2 a b r ('\n' :: y) := by
        simp only [replaceSeg2]
        rw [if_neg]
        rintro ⟨_, h2⟩
        exact hb h2.symm
      rw [hstep, replaceSeg2_cons_nl ha]
      rfl
    · simp only [List.length_cons] at hlen
      rw [List.cons_append, List.cons_append]
      by_cases hde : d = a ∧ e = b
      · rw [show replaceSeg2 a b r (d :: e :: (rest ++ '\n' :: y)) =
            r ++ replaceSeg2 a b r (rest ++ '\n' :: y) from by
            simp only [replaceSeg2]; rw [if_pos hde],
          show replaceSeg2 a b r (d :: e :: rest) =
            r ++ replaceSeg2 a b r rest from by
            simp only [replaceSeg2]; rw [if_pos hde],
          ih rest (by omega) y, List.append_assoc]
      · rw [show replaceSeg2 a b r (d :: e :: (rest ++ '\n' :: y)) =
            d :: replaceSeg2 a b r (e :: (rest ++ '\n' :: y)) from by
            simp only [replaceSeg2]; rw [if_neg hde],
          show replaceSeg2 a b r (d :: e :: rest) =
            d :: replaceSeg2 a b r (e :: rest) from by
            simp only [replaceSeg2]; rw [if_neg hde],
          show e :: (rest ++ '\n' :: y) = (e :: rest) ++ '\n' :: y from rfl,
          ih (e :: rest) (by simp; omega) y]
        rfl

/-! ### Log shape -/

theorem buildLog_props : ∀ zf bf inl hf cf : Bool,
    (buildLog zf bf inl hf cf).Nodup ∧
    ∀ m ∈ buildLog zf bf inl hf cf, m = zwspMsg ∨ m = blockMsg ∨
      m = inlineMsg ∨ m = headingMsg ∨ m = closureMsg := by
  decide

theorem buildLog_closure : ∀ z b i h : Bool,
    (buildLog z b i h true).count closureMsg = 1 ∧
    closureMsg ∉ buildLog z b i h false := by
  decide

/-! ### The scan on a single dollar-run line -/

theorem scan_single_dollar (k : Nat) :
    scanAux [] 0 false false [List.replicate (k + 1) '$'] =
      ⟨[List.replicate (k + 1) '$'], false, false⟩ := by
  have hh : reHeading (List.replicate (k + 1) '$') = none := by
    rw [reHeading_spec, runLen_replicate_zero (by decide), if_neg]
    rintro ⟨hx, _, _⟩
    omega
  simp only [scanAux]
  rw [isFence_replicate_dollar]
  simp only [Bool.false_eq_true, if_false]
  rw [repairLine_dollar, blanksBefore_nil_prev, reHr_replicate_dollar, hh]
  simp

/-! ### The claims -/

/-- Claim C1 is refuted: the whole-text pre-pass rewrites bytes lying
strictly between a matched pair of fence-marker lines — on
`"```\n\[\n```"` the interior line `\[` becomes `$$` in the output. -/
theorem c1_counterexample :
    (smart_fix_markdown (chars "```\n\\[\n```")).1 = chars "```\n$$\n```" ∧
    splitNl (chars "```\n\\[\n```") = [chars "```", chars "\\[", chars "```"] ∧
    splitNl (chars "```\n$$\n```") = [chars "```", chars "$$", chars "```"] ∧
    isFence (chars "```") = true ∧ chars "\\[" ≠ chars "$$" := by
  decide

/-- Claim C1, amended: opacity holds for the LINE SCAN only — while the
fence state is CodeFence, every non-fence line is emitted byte-identical,
with no repair, no blank-line injection and no heading-log update. -/
theorem c1_amended_thm (ls : List Line) (prev : Line) (i : Nat) (hf : Bool)
    (h : ∀ l ∈ ls, isFence l = false) :
    (scanAux prev i true hf ls).out = ls ∧
    (scanAux prev i true hf ls).final = true ∧
    (scanAux prev i true hf ls).hflag = hf := by
  induction ls generalizing prev i with
  | nil => exact ⟨rfl, rfl, rfl⟩
  | cons l ls ih =>
    have hl : isFence l = false := h l (List.mem_cons_self l ls)
    obtain ⟨ih1, ih2, ih3⟩ :=
      ih l (i + 1) (fun x hx => h x (List.mem_cons_of_mem l hx))
    refine ⟨?_, ?_, ?_⟩ <;> simp [scanAux, hl, ih1, ih2, ih3]

/-- Witness for the amended C1 at a concrete heading-shaped code line. -/
theorem c1_witness :
    (∀ l ∈ [chars "#x"], isFence l = false) ∧
    ((scanAux [] 0 true false [chars "#x"]).out = [chars "#x"] ∧
      (scanAux [] 0 true false [chars "#x"]).final = true ∧
      (scanAux [] 0 true false [chars "#x"]).hflag = false) :=
  ⟨by decide, c1_amended_thm [chars "#x"] [] 0 false (by decide)⟩

/-- Claim C2 is refuted: the input `"$$"` is returned unchanged with an
empty log — its block-math token count is 1, which is odd, and no closing
token is appended. -/
theorem c2_counterexample :
    (smart_fix_markdown (chars "$$")).1 = chars "$$" ∧
    (smart_fix_markdown (chars "$$")).2 = [] ∧
    countDD ((smart_fix_markdown (chars "$$")).1) = 1 := by
  decide

/-- Claim C2, amended: the engine performs no math-delimiter closure at
all — every pure run of dollar signs (carrying any block-math token count,
odd counts included) passes through the whole pipeline unchanged with an
empty log. -/
theorem c2_amended_thm (k : Nat) :
    smart_fix_markdown (List.replicate k '$') = (List.replicate k '$', []) ∧
    countDD (List.replicate (2 * k) '$') = k := by
  refine ⟨?_, countDD_replicate k⟩
  rcases k with _ | k
  · decide
  · have hne : List.replicate (k + 1) '$' ≠ [] := by
      rw [List.replicate_succ]
      exact List.cons_ne_nil _ _
    rw [smart_fix_markdown, if_neg hne]
    dsimp only
    have hz : (List.replicate (k + 1) '$').contains zwsp = false := by
      rw [contains_false_iff]
      intro h
      exact absurd (List.eq_of_mem_replicate h) (by decide)
    have h1 : hasSeg ['\\', '['] (List.replicate (k + 1) '$') = false :=
      hasSeg_replicate_ne (by decide) _ _
    have h2 : hasSeg ['\\', ']'] (List.replicate (k + 1) '$') = false :=
      hasSeg_replicate_ne (by decide) _ _
    have h3 : hasSeg ['\\', '('] (List.replicate (k + 1) '$') = false :=
      hasSeg_replicate_ne (by decide) _ _
    have h4 : hasSeg ['\\', ')'] (List.replicate (k + 1) '$') = false :=
      hasSeg_replicate_ne (by decide) _ _
    have hpre : prePass (List.replicate (k + 1) '$') =
        ⟨List.replicate (k + 1) '$', false, false, false⟩ := by
      rw [prePass]
      rw [hz]
      simp only [Bool.false_eq_true, if_false]
      rw [h1, h2]
      simp only [Bool.false_or, Bool.false_eq_true, if_false]
      rw [h3, h4]
      simp only [Bool.false_or, Bool.false_eq_true, if_false]
    rw [hpre]
    dsimp only
    have hnl : '\n' ∉ List.replicate (k + 1) '$' := fun h =>
      absurd (List.eq_of_mem_replicate h) (by decide)
    rw [splitNl_single hnl, scan_single_dollar]
    dsimp only
    simp only [Bool.false_eq_true, if_false]
    rw [show joinNl [List.replicate (k + 1) '$'] =
      List.replicate (k + 1) '$' from rfl, collapseNl_no_nl hnl]
    rfl

/-- Claim C3 is refuted: on `"-b\n-a"` a blank line is injected before the
second item although the previously EMITTED line `"- b"` is a standard
list item — the raw input line `"-b"` is what the injector consults. -/
theorem c3_counterexample :
    (smart_fix_markdown (chars "-b\n-a")).1 = chars "- b\n\n- a" ∧
    reUlStd (chars "- b") = true ∧ reUlStd (chars "-b") = false ∧
    reUlStd (chars "- a") = true := by
  decide

/-- Claim C3, amended: the separators injected before the second of two
prose lines are computed by `blanksBefore` from the RAW previous input
line `p`, not from the previously emitted (repaired) line. -/
theorem c3_amended_thm (p c : Line) (hp : isFence p = false)
    (hc : isFence c = false) :
    (scanAux [] 0 false false [p, c]).out =
      blanksBefore [] (repairLine p) ++ repairLine p ::
        ((if reHr (repairLine p) then [[]] else []) ++
          (blanksBefore p (repairLine c) ++ repairLine c ::
            ((if reHr (repairLine c) then [[]] else []) ++
              ([] : List Line)))) := by
  simp only [scanAux]
  rw [hp, hc]
  simp only [Bool.false_eq_true, if_false]

/-- Witness for the amended C3 at the counterexample's two raw lines. -/
theorem c3_witness :
    isFence (chars "-b") = false ∧ isFence (chars "-a") = false ∧
    (scanAux [] 0 false false [chars "-b", chars "-a"]).out =
      blanksBefore [] (repairLine (chars "-b")) ++ repairLine (chars "-b") ::
        ((if reHr (repairLine (chars "-b")) then [[]] else []) ++
          (blanksBefore (chars "-b") (repairLine (chars "-a")) ++
            repairLine (chars "-a") ::
              ((if reHr (repairLine (chars "-a")) then [[]] else []) ++
                ([] : List Line)))) :=
  ⟨by decide, by decide,
    c3_amended_thm (chars "-b") (chars "-a") (by decide) (by decide)⟩

/-- Claim C4 is refuted: `\( … \)` spanning a line break is rewritten
anyway — `"\(a\nb\)"` becomes `"$a\nb$"` (and the rewrite is logged). -/
theorem c4_counterexample :
    prePassText (chars "\\(a\nb\\)") = chars "$a\nb$" ∧
    (prePass (chars "\\(a\nb\\)")).inf = true ∧
    (smart_fix_markdown (chars "\\(a\nb\\)")).1 = chars "$a\nb$" := by
  decide

/-- Claim C4, amended: the pre-pass is a plain character-level
substitution that distributes over line breaks — matching, pairing and
line position are irrelevant to it. -/
theorem c4_amended_thm (x y : Line) :
    prePassText (x ++ '\n' :: y) =
      prePassText x ++ '\n' :: prePassText y := by
  rw [prePassText_eq, prePassText_eq, prePassText_eq,
    removeChar_append_nl (by decide),
    replaceSeg2_append_nl (by decide) (by decide),
    replaceSeg2_append_nl (by decide) (by decide),
    replaceSeg2_append_nl (by decide) (by decide),
    replaceSeg2_append_nl (by decide) (by decide)]

/-- Claim C5 is refuted: the blockquote-spacing repair modifies `">x"` to
`"> x"` yet the log stays empty; a heading repaired on the sixth line
(index 5) is likewise unlogged. -/
theorem c5_counterexample :
    smart_fix_markdown (chars ">x") = (chars "> x", []) ∧
    (smart_fix_markdown (chars "a\nb\nc\nd\ne\n#x")).1 =
      chars "a\nb\nc\nd\ne\n\n# x" ∧
    (smart_fix_markdown (chars "a\nb\nc\nd\ne\n#x")).2 = [] := by
  decide

/-- Claim C5, amended: the log is duplicate-free and drawn from the five
fixed messages only (zero-width-space, block math, inline math, heading
within the first five lines, fence closure); no other repair ever logs. -/
theorem c5_amended_thm (t : Line) :
    (smart_fix_markdown t).2.Nodup ∧
    ∀ m ∈ (smart_fix_markdown t).2, m = zwspMsg ∨ m = blockMsg ∨
      m = inlineMsg ∨ m = headingMsg ∨ m = closureMsg := by
  by_cases ht : t = []
  · subst ht
    rw [smart_fix_markdown, if_pos rfl]
    exact ⟨List.nodup_nil, by intro m hm; cases hm⟩
  · rw [smart_fix_markdown, if_neg ht]
    dsimp only
    exact buildLog_props _ _ _ _ _

/-- Claim C6 is refuted in its blank-line part: the closure appends the
bare three-character fence after a single newline — `"```python\nprint(1)"`
yields `"```python\nprint(1)\n```"`, no blank line before the fence. -/
theorem c6_counterexample :
    smart_fix_markdown (chars "```python\nprint(1)") =
      (chars "```python\nprint(1)\n```", [closureMsg]) ∧
    splitNl (chars "```python\nprint(1)\n```") =
      [chars "```python", chars "print(1)", chars "```"] ∧
    isBlank (chars "print(1)") = false := by
  decide

/-- Claim C6, amended: a terminal CodeFence state appends exactly
`"\n```"` (no blank-line separator) and logs the closure exactly once; a
terminal Prose state appends nothing and logs no closure. -/
theorem c6_amended_thm (t : Line) (hne : t ≠ []) :
    ((scanAux [] 0 false false (splitNl (prePassText t))).final = true →
      (smart_fix_markdown t).1 =
        collapseNl (joinNl (scanAux [] 0 false false
          (splitNl (prePassText t))).out ++ '\n' :: [tick, tick, tick]) ∧
      (smart_fix_markdown t).2.count closureMsg = 1) ∧
    ((scanAux [] 0 false false (splitNl (prePassText t))).final = false →
      (smart_fix_markdown t).1 =
        collapseNl (joinNl (scanAux [] 0 false false
          (splitNl (prePassText t))).out) ∧
      closureMsg ∉ (smart_fix_markdown t).2) := by
  rw [smart_fix_markdown, if_neg hne]
  dsimp only
  rw [show (prePass t).text = prePassText t from rfl]
  constructor
  · intro hf
    rw [if_pos hf, hf]
    exact ⟨rfl, (buildLog_closure _ _ _ _).1⟩
  · intro hf
    rw [if_neg (by rw [hf]; exact Bool.false_ne_true), hf]
    exact ⟨rfl, (buildLog_closure _ _ _ _).2⟩

/-- Witness for the amended C6: a lone opening fence line. -/
theorem c6_witness :
    chars "```" ≠ [] ∧
    (((scanAux [] 0 false false (splitNl (prePassText (chars "```")))).final = true →
      (smart_fix_markdown (chars "```")).1 =
        collapseNl (joinNl (scanAux [] 0 false false
          (splitNl (prePassText (chars "```")))).out ++
            '\n' :: [tick, tick, tick]) ∧
      (smart_fix_markdown (chars "```")).2.count closureMsg = 1) ∧
    ((scanAux [] 0 false false (splitNl (prePassText (chars "```")))).final = false →
      (smart_fix_markdown (chars "```")).1 =
        collapseNl (joinNl (scanAux [] 0 false false
          (splitNl (prePassText (chars "```")))).out) ∧
      closureMsg ∉ (smart_fix_markdown (chars "```")).2)) :=
  ⟨by decide, c6_amended_thm (chars "```") (by decide)⟩

/-- Claim C7 is confirmed: the output always holds an even number of
fence-marker lines — the scan preserves the fence count and its parity
determines the closure, repairs never create or destroy a fence marker,
and the cleanup only drops blank lines. -/
theorem c7_thm (t : Line) :
    fenceCount (splitNl ((smart_fix_markdown t).1)) % 2 = 0 :=
  out_fence_even t

/-- Claim C8 is refuted in its text part: `"___"` becomes `"___\n"`, and a
second run grows it again to `"___\n\n"` — the horizontal-rule rule
appends a blank unconditionally on every run. -/
theorem c8_counterexample :
    (smart_fix_markdown (chars "___")).1 = chars "___\n" ∧
    (smart_fix_markdown (chars "___\n")).1 = chars "___\n\n" ∧
    chars "___\n" ≠ chars "___" := by
  decide

/-- Claim C8, amended: although the text itself is not a fixpoint, a
second run finds nothing to log — its fix log is empty — and the pre-pass
alone is idempotent on its own output. -/
theorem c8_amended_thm (t : Line) :
    (smart_fix_markdown ((smart_fix_markdown t).1)).2 = [] ∧
    prePassText (prePassText t) = prePassText t := by
  refine ⟨?_, prePassText_idem t⟩
  obtain ⟨o, hout⟩ : ∃ o, (smart_fix_markdown t).1 = o := ⟨_, rfl⟩
  rw [hout]
  by_cases hoe : o = []
  · rw [hoe, smart_fix_markdown, if_pos rfl]
  · rw [smart_fix_markdown, if_neg hoe]
    dsimp only
    have hzm : zwsp ∉ o := by rw [← hout]; exact out_zwsp t
    have hz : o.contains zwsp = false := contains_false_iff.mpr hzm
    have p1 : pairFree '\\' '[' o = true := by
      rw [← hout]
      exact out_pairFree_gen t (prePass_pairFree t).1 (by decide) (by decide)
        (by decide) (by decide) (by decide) (by decide) (by decide)
        (by decide) (by decide) (by decide) (by decide)
    have p2 : pairFree '\\' ']' o = true := by
      rw [← hout]
      exact out_pairFree_gen t (prePass_pairFree t).2.1 (by decide) (by decide)
        (by decide) (by decide) (by decide) (by decide) (by decide)
        (by decide) (by decide) (by decide) (by decide)
    have p3 : pairFree '\\' '(' o = true := by
      rw [← hout]
      exact out_pairFree_gen t (prePass_pairFree t).2.2.1 (by decide)
        (by decide) (by decide) (by decide) (by decide) (by decide)
        (by decide) (by decide) (by decide) (by decide) (by decide)
    have p4 : pairFree '\\' ')' o = true := by
      rw [← hout]
      exact out_pairFree_gen t (prePass_pairFree t).2.2.2.1 (by decide)
        (by decide) (by decide) (by decide) (by decide) (by decide)
        (by decide) (by decide) (by decide) (by decide) (by decide)
    have hs1 : hasSeg ['\\', '['] o = false := by rw [hasSeg_pair_eq, p1]; rfl
    have hs2 : hasSeg ['\\', ']'] o = false := by rw [hasSeg_pair_eq, p2]; rfl
    have hs3 : hasSeg ['\\', '('] o = false := by rw [hasSeg_pair_eq, p3]; rfl
    have hs4 : hasSeg ['\\', ')'] o = false := by rw [hasSeg_pair_eq, p4]; rfl
    have hpre_o : prePass o = ⟨o, false, false, false⟩ := by
      rw [prePass]
      rw [hz]
      simp only [Bool.false_eq_true, if_false]
      rw [hs1, hs2]
      simp only [Bool.false_or, Bool.false_eq_true, if_false]
      rw [hs3, hs4]
      simp only [Bool.false_or, Bool.false_eq_true, if_false]
    rw [hpre_o]
    dsimp only
    have hgood : goodLines false (splitNl o) = true := by
      rw [← hout]
      exact out_good t
    have hhf : (scanAux [] 0 false false (splitNl o)).hflag = false :=
      scan_hflag_of_good _ [] 0 false false hgood
    have heven : fenceCount (splitNl o) % 2 = 0 := by
      rw [← hout]
      exact out_fence_even t
    have hfin : (scanAux [] 0 false false (splitNl o)).final = false := by
      rw [(scan_fence_final (splitNl o) [] 0 false false).2, Bool.false_xor]
      rw [decide_eq_false (by omega)]
    rw [hhf, hfin]
    rfl

/-- Claim C9 is refuted: the code's class is `[^ #]`, not `\S` — `"##"`
(matched by the spec's `^(#{1,6})(\S)` with one hash) and `"#######x"`
(matched with six) are both left unrepaired by the pipeline. -/
theorem c9_counterexample :
    reHeadingSpec (chars "##") = some 1 ∧ reHeading (chars "##") = none ∧
    (smart_fix_markdown (chars "##")).1 = chars "##" ∧
    reHeadingSpec (chars "#######x") = some 6 ∧
    (smart_fix_markdown (chars "#######x")).1 = chars "#######x" := by
  decide

/-- Claim C9, amended: the heading fix fires exactly when the maximal hash
run has length 1–6 and the next character exists and is neither a space
nor another hash (`[^ #]`), in which case precisely one space is inserted
after the run and the tail is unchanged. -/
theorem c9_amended_thm (l : Line) :
    headingFix l =
      (if 1 ≤ runLen (· = '#') l ∧ runLen (· = '#') l ≤ 6 ∧
          classNotSpaceHash (l.get? (runLen (· = '#') l)) = true then
        List.replicate (runLen (· = '#') l) '#' ++ ' ' ::
          l.drop (runLen (· = '#') l)
      else l) := by
  by_cases hc : 1 ≤ runLen (· = '#') l ∧ runLen (· = '#') l ≤ 6 ∧
      classNotSpaceHash (l.get? (runLen (· = '#') l)) = true
  · rw [if_pos hc]
    exact headingFix_eq_of_some (by rw [reHeading_spec, if_pos hc])
  · rw [if_neg hc]
    exact headingFix_eq_of_none (by rw [reHeading_spec, if_neg hc])

/-- Claim C10 is confirmed: any line of optional whitespace followed by
three backticks — whatever trails them — is a fence marker; the scan
emits it verbatim and toggles the state, in either state, with no repair,
injection or log update. -/
theorem c10_thm (w x : Line) (hw : w.all pyIsSpace = true) (prev : Line)
    (i : Nat) (ic hf : Bool) (ls : List Line) :
    isFence (w ++ tick :: tick :: tick :: x) = true ∧
    (scanAux prev i ic hf ((w ++ tick :: tick :: tick :: x) :: ls)).out =
      (w ++ tick :: tick :: tick :: x) ::
        (scanAux (w ++ tick :: tick :: tick :: x) (i + 1) (!ic) hf ls).out ∧
    (scanAux prev i ic hf ((w ++ tick :: tick :: tick :: x) :: ls)).final =
      (scanAux (w ++ tick :: tick :: tick :: x) (i + 1) (!ic) hf ls).final ∧
    (scanAux prev i ic hf ((w ++ tick :: tick :: tick :: x) :: ls)).hflag =
      (scanAux (w ++ tick :: tick :: tick :: x) (i + 1) (!ic) hf ls).hflag := by
  have hfence : isFence (w ++ tick :: tick :: tick :: x) = true := by
    rw [isFence, dropWhile_append_all hw, List.dropWhile_cons]
    simp only [show pyIsSpace tick = false from rfl, Bool.false_eq_true,
      if_false]
    rw [isSegAt_cons_cons, isSegAt_cons_cons, isSegAt_cons_cons]
    simp [isSegAt_nil]
  refine ⟨hfence, ?_, ?_, ?_⟩ <;> (simp only [scanAux]; rw [if_pos hfence])

/-- Witness for C10: an indented opening fence with a language tag. -/
theorem c10_witness :
    ([' '] : Line).all pyIsSpace = true ∧
    (isFence ([' '] ++ tick :: tick :: tick :: chars "python") = true ∧
    (scanAux [] 0 false false
        (([' '] ++ tick :: tick :: tick :: chars "python") :: [])).out =
      ([' '] ++ tick :: tick :: tick :: chars "python") ::
        (scanAux ([' '] ++ tick :: tick :: tick :: chars "python") (0 + 1)
          (!false) false []).out ∧
    (scanAux [] 0 false false
        (([' '] ++ tick :: tick :: tick :: chars "python") :: [])).final =
      (scanAux ([' '] ++ tick :: tick :: tick :: chars "python") (0 + 1)
        (!false) false []).final ∧
    (scanAux [] 0 false false
        (([' '] ++ tick :: tick :: tick :: chars "python") :: [])).hflag =
      (scanAux ([' '] ++ tick :: tick :: tick :: chars "python") (0 + 1)
        (!false) false []).hflag) :=
  ⟨by decide, c10_thm [' '] (chars "python") (by decide) [] 0 false false []⟩

